import Mathlib

/-!
# Verification of the PX_Axios wrapper (`src/core/axiosClass.ts`)

A shallow embedding of the PXAxios HTTP-client wrapper:

* the recursive multipart-form encoder `createFormData` / `appendFormData`
  (source lines 101-127);
* the global-header merge `setGlobalHeaders` (source lines 163-195);
* the response pipeline: the `transformResponse` decoder built on
  `json-bigint` with `storeAsString: true` (source lines 32, 43-51) and the
  response interceptor with its success/failure observers and response-code
  interception (source lines 72-94).

JavaScript runtime values reaching the form encoder are modelled by `JSVal`;
decoded JSON payloads by `JValue`.  Machine numbers that matter here are
integers (error codes, the safe-integer bound 2^53 - 1), modelled as `Int`.

The file is organised as: all definitions first, then all theorems.
-/

namespace PXAxios

/-! ## JavaScript values seen by the form encoder

`JSVal` models the runtime values `createFormData` can receive: primitives,
`null`/`undefined`, binary blobs (`File`/`Blob`, identified by a tag), arrays
and plain objects (ordered own-property lists, keys unique in real JS
objects). -/

inductive JSVal where
  | vstr (s : String)
  | vnum (n : Int)
  | vbool (b : Bool)
  | vnull
  | vundef
  | vblob (id : Nat)
  | varr (elems : List JSVal)
  | vobj (fields : List (String × JSVal))
deriving Repr

/-- A single multipart form field value: `FormData.append` receives either a
binary blob appended verbatim or the result of coercing the value with
`String(value)`. -/
inductive FormField where
  | text (s : String)
  | fblob (id : Nat)
deriving Repr, DecidableEq

/-- JavaScript `String(value)` for the non-container values that reach the
final `else` branch of `appendFormData` (line 116). -/
def jsStringOf : JSVal → String
  | .vstr s => s
  | .vnum n => toString n
  | .vbool b => if b then "true" else "false"
  | .vnull => "null"
  | .vundef => "undefined"
  | .vblob _ => "[blob]"   -- unreachable from appendFormData: blobs are caught first
  | .varr _ => ""          -- unreachable: arrays are caught first
  | .vobj _ => ""          -- unreachable: objects are caught first

mutual

/-- `appendFormData(key, value)` (source lines 104-118).  The branch order of
the source is kept: blob first, then `Array.isArray`, then
`typeof value === 'object' && value !== null`, and the `String(value)`
fallback (which `null` below the top level reaches, since `value !== null`
fails the object branch). -/
def flattenVal (key : String) : JSVal → List (String × FormField)
  | .vblob b => [(key, .fblob b)]
  | .varr xs => flattenArr key xs 0
  | .vobj fs => flattenObj key fs
  | .vstr s => [(key, .text (jsStringOf (.vstr s)))]
  | .vnum n => [(key, .text (jsStringOf (.vnum n)))]
  | .vbool b => [(key, .text (jsStringOf (.vbool b)))]
  | .vnull => [(key, .text (jsStringOf .vnull))]
  | .vundef => [(key, .text (jsStringOf .vundef))]

/-- The `value.forEach((item, index) => appendFormData(`key[index]`, item))`
loop (source lines 108-110), with the running index made explicit. -/
def flattenArr (key : String) : List JSVal → Nat → List (String × FormField)
  | [], _ => []
  | x :: xs, i =>
      flattenVal (key ++ "[" ++ toString i ++ "]") x ++ flattenArr key xs (i + 1)

/-- The `Object.entries(value).forEach(([subKey, subValue]) =>
appendFormData(`key.subKey`, subValue))` loop (source lines 112-114). -/
def flattenObj (key : String) : List (String × JSVal) → List (String × FormField)
  | [] => []
  | (k, v) :: fs => flattenVal (key ++ "." ++ k) v ++ flattenObj key fs

end

/-- `value === undefined || value === null`, the top-level skip test of
`createFormData` (line 121, negated). -/
def isNullOrUndef : JSVal → Bool
  | .vnull => true
  | .vundef => true
  | _ => false

/-- `createFormData(data)` (source lines 101-127): iterate the top-level
entries in order, skip `undefined` and `null` values, and append the
flattening of every other value under its own key. -/
def createFormData (data : List (String × JSVal)) : List (String × FormField) :=
  data.foldr
    (fun kv rest => if isNullOrUndef kv.2 then rest else flattenVal kv.1 kv.2 ++ rest)
    []

/-- A value the encoder does not recurse into: anything but an array or a
plain object. -/
def isTerminal : JSVal → Bool
  | .varr _ => false
  | .vobj _ => false
  | _ => true

/-- The single field a terminal value contributes under a key. -/
def leafField : JSVal → FormField
  | .vblob b => .fblob b
  | v => .text (jsStringOf v)

mutual

/-- The blob identifiers occurring anywhere in a value, in depth-first
traversal order (the order the encoder visits them). -/
def blobsIn : JSVal → List Nat
  | .vblob b => [b]
  | .varr xs => blobsInList xs
  | .vobj fs => blobsInFields fs
  | _ => []

def blobsInList : List JSVal → List Nat
  | [] => []
  | x :: xs => blobsIn x ++ blobsInList xs

def blobsInFields : List (String × JSVal) → List Nat
  | [] => []
  | (_, v) :: fs => blobsIn v ++ blobsInFields fs

end

/-- The blob identifiers appearing as field values in an emitted field list,
in emission order. -/
def fieldBlobs (l : List (String × FormField)) : List Nat :=
  l.filterMap (fun kf => match kf.2 with | .fblob b => some b | .text _ => none)

/-! ## Global header table and `setGlobalHeaders` (source lines 163-195)

The eight verb scopes of axios' default-header table.  Each scope is modelled
as a partial map from header name to stored value; `delete obj[key]` removes
a binding and assignment overwrites it, so a map `String → Option _` captures
the lookup behaviour the claims are about. -/

inductive Scope where
  | common | get | post | put | delete | patch | head | options
deriving DecidableEq, Repr

/-- The string key of each scope, as listed in `methodKeys` (line 166). -/
def scopeName : Scope → String
  | .common => "common"
  | .get => "get"
  | .post => "post"
  | .put => "put"
  | .delete => "delete"
  | .patch => "patch"
  | .head => "head"
  | .options => "options"

/-- `methodKeys` (line 166), in source order. -/
def methodKeys : List Scope :=
  [.common, .get, .post, .put, .delete, .patch, .head, .options]

def methodNames : List String := methodKeys.map scopeName

/-- A `HeaderValue = string | number | boolean | null` (line 12). -/
inductive HVal where
  | hs (s : String)
  | hn (n : Int)
  | hb (b : Bool)
  | hnull
deriving DecidableEq, Repr

/-- A top-level value of the `FlexibleHeaders` union (lines 15-17): either a
plain header value (flat form) or a nested per-scope header object. -/
inductive InVal where
  | val (v : HVal)
  | scope (entries : List (String × HVal))
deriving DecidableEq, Repr

/-- `value === null` on a top-level entry (line 188). -/
def isNullVal : InVal → Bool
  | .val .hnull => true
  | _ => false

/-- JavaScript truthiness of `methodHeaders` (`if (methodHeaders)`,
line 175). -/
def truthy : InVal → Bool
  | .val .hnull => false
  | .val (.hs s) => !s.isEmpty
  | .val (.hn n) => n != 0
  | .val (.hb b) => b
  | .scope _ => true

/-- `Object.entries(methodHeaders)` (line 176): the entries of a nested
header object; on a (truthy) primitive that slipped in under a scope key,
`Object.entries` yields the indexed characters of a string and nothing for a
number or boolean. -/
def entriesOf : InVal → List (String × HVal)
  | .scope es => es
  | .val (.hs s) => s.data.enum.map (fun p => (toString p.1, .hs (String.mk [p.2])))
  | .val _ => []

/-- The persistent default-header table: a stored value per scope and header
name.  Scopes are always present (axios pre-creates them; `delete
defaultHeaders[method]?.[key]` and `defaultHeaders[method] =
defaultHeaders[method] || \x7b\x7d` only guard against absent scope
objects). -/
abbrev HeaderTable := Scope → String → Option InVal

/-- `defaultHeaders[m][k] = v`. -/
def setAt (t : HeaderTable) (m : Scope) (k : String) (v : InVal) : HeaderTable :=
  fun m' k' => if m' = m ∧ k' = k then some v else t m' k'

/-- `delete defaultHeaders[m][k]`. -/
def delAt (t : HeaderTable) (m : Scope) (k : String) : HeaderTable :=
  fun m' k' => if m' = m ∧ k' = k then none else t m' k'

/-- The `isMethodBased` key test (lines 168-170): some top-level key is one of
the eight scope names. -/
def isMethodBased (headers : List (String × InVal)) : Bool :=
  headers.any (fun kv => methodNames.contains kv.1)

/-- The per-scope branch (lines 173-185): for each scope key in `methodKeys`
order, if the input has a truthy entry under that key, apply its (name, value)
pairs to that scope — `null` deletes, anything else assigns. -/
def applyScopeEntries (t : HeaderTable) (m : Scope) (es : List (String × HVal)) :
    HeaderTable :=
  es.foldl
    (fun t' kv => if kv.2 = HVal.hnull then delAt t' m kv.1 else setAt t' m kv.1 (.val kv.2))
    t

def applyMethodBased (t : HeaderTable) (headers : List (String × InVal)) : HeaderTable :=
  methodKeys.foldl
    (fun t' m =>
      match List.lookup (scopeName m) headers with
      | some iv => if truthy iv then applyScopeEntries t' m (entriesOf iv) else t'
      | none => t')
    t

/-- The flat branch (lines 187-193): every (key, value) pair is applied to the
`common` scope — `null` deletes, anything else assigns. -/
def applyFlat (t : HeaderTable) (headers : List (String × InVal)) : HeaderTable :=
  headers.foldl
    (fun t' kv =>
      if isNullVal kv.2 then delAt t' .common kv.1 else setAt t' .common kv.1 kv.2)
    t

/-- `setGlobalHeaders` (lines 163-195). -/
def setGlobalHeaders (t : HeaderTable) (headers : List (String × InVal)) : HeaderTable :=
  if isMethodBased headers then applyMethodBased t headers else applyFlat t headers

/-- The spec's description of flat-form merging, as a last-write-wins fold on
a single (scope, name) slot: a `null` value removes the name, any other value
sets it, later pairs override earlier ones. -/
def flatLastWrite (init : Option InVal) (headers : List (String × InVal)) (k : String) :
    Option InVal :=
  headers.foldl
    (fun acc kv => if kv.1 = k then (if isNullVal kv.2 then none else some kv.2) else acc)
    init

/-! ## Decoded JSON payloads and the `json-bigint` decoder

`JValue` models the structured value produced by `jsonBig.parse`.  Numbers in
the safe native integer range stay numeric (`num`); every other numeric token
is stored as its exact source text (`str`), which is the
`storeAsString: true` behaviour the wrapper configures (line 32).

Modelled from the spec: the `json-bigint` dependency itself is an external
collaborator ("a text-to-structured-value parser configured to preserve large
integers as exact decimal strings"); its recursive-descent JSON parser is
reproduced here (Crockford-style grammar: `white`/`value`/`string`/`number`/
`array`/`object`, trailing input rejected), with numeric conversion keeping a
token as a number exactly when its value is an integer within
±(2^53 - 1) and storing the exact token text otherwise.  Exotic corners where
IEEE-754 rounding of a non-integer token lands on a safe integer are resolved
by the exact-value reading. -/

inductive JValue where
  | null
  | bool (b : Bool)
  | num (n : Int)
  | str (s : String)
  | arr (elems : List JValue)
  | obj (fields : List (String × JValue))
deriving Repr

/-- `Number.MAX_SAFE_INTEGER` = 2^53 - 1. -/
def maxSafeInt : Int := 9007199254740991

def isDigit (c : Char) : Bool := '0' ≤ c && c ≤ '9'

def digitsToNat (ds : List Char) : Nat :=
  ds.foldl (fun a c => a * 10 + (c.toNat - 48)) 0

/-- `white()`: skip characters with code ≤ 32. -/
def skipWs (cs : List Char) : List Char :=
  cs.dropWhile (fun c => c.toNat ≤ 32)

/-- The `storeAsString` conversion of a scanned numeric token: exact value
`±(intDs.fracDs) · 10^expVal`; a safe integer stays a number, anything else
becomes the exact token text. -/
def mkNumber (token : String) (neg : Bool) (intDs fracDs : List Char)
    (expVal : Int) : JValue :=
  let M : Nat := digitsToNat (intDs ++ fracDs)
  let net : Int := expVal - fracDs.length
  if 0 ≤ net then
    let v : Int := (M : Int) * 10 ^ net.toNat
    if v ≤ maxSafeInt then .num (if neg then -v else v) else .str token
  else
    let d : Nat := 10 ^ (-net).toNat
    if M % d = 0 then
      let v : Int := ((M / d : Nat) : Int)
      if v ≤ maxSafeInt then .num (if neg then -v else v) else .str token
    else .str token

/-- `number()`: scan `-? digits ('.' digits)? ([eE] [+-]? digits)?`; a token
with no mantissa digits, or an exponent marker with no digits, is a "Bad
number" (`+string` is `NaN`). -/
def parseNumber (cs : List Char) : Option (JValue × List Char) :=
  let (sign, cs₁) :=
    match cs with
    | '-' :: rest => ((['-'] : List Char), rest)
    | _ => (([] : List Char), cs)
  let intDs := cs₁.takeWhile isDigit
  let cs₂ := cs₁.dropWhile isDigit
  let (dotChars, fracDs, cs₃) :=
    match cs₂ with
    | '.' :: rest => ((['.'] : List Char), rest.takeWhile isDigit, rest.dropWhile isDigit)
    | _ => (([] : List Char), ([] : List Char), cs₂)
  let (expChars, expVal?, cs₄) :=
    match cs₃ with
    | c :: rest =>
      if c = 'e' ∨ c = 'E' then
        match rest with
        | s :: rest₂ =>
          if s = '+' ∨ s = '-' then
            let eds := rest₂.takeWhile isDigit
            ([c, s] ++ eds,
              if eds.isEmpty then none
              else some (if s = '-' then -(digitsToNat eds : Int) else (digitsToNat eds : Int)),
              rest₂.dropWhile isDigit)
          else
            let eds := rest.takeWhile isDigit
            (c :: eds,
              if eds.isEmpty then none else some ((digitsToNat eds : Int)),
              rest.dropWhile isDigit)
        | [] => ([c], none, ([] : List Char))
      else (([] : List Char), some (0 : Int), cs₃)
    | [] => (([] : List Char), some (0 : Int), ([] : List Char))
  if intDs.isEmpty && fracDs.isEmpty then none
  else
    match expVal? with
    | none => none
    | some e =>
        let token := String.mk (sign ++ intDs ++ dotChars ++ fracDs ++ expChars)
        some (mkNumber token (sign ≠ []) intDs fracDs e, cs₄)

def hexDigitVal? (c : Char) : Option Nat :=
  if '0' ≤ c ∧ c ≤ '9' then some (c.toNat - 48)
  else if 'a' ≤ c ∧ c ≤ 'f' then some (c.toNat - 87)
  else if 'A' ≤ c ∧ c ≤ 'F' then some (c.toNat - 55)
  else none

/-- The `\u` escape loop: read up to four hex digits, stopping (with the
offending character consumed) at the first non-hex digit, accumulating the
partial code. -/
def readHex : Nat → Nat → List Char → Nat × List Char
  | 0, acc, cs => (acc, cs)
  | _ + 1, acc, [] => (acc, [])
  | n + 1, acc, c :: cs =>
    match hexDigitVal? c with
    | some h => readHex n (acc * 16 + h) cs
    | none => (acc, cs)

/-- The escapee table of `string()`. -/
def escChar? (c : Char) : Option Char :=
  if c = '"' then some '"'
  else if c = '\\' then some '\\'
  else if c = '/' then some '/'
  else if c = 'b' then some (Char.ofNat 8)
  else if c = 'f' then some (Char.ofNat 12)
  else if c = 'n' then some '\n'
  else if c = 'r' then some '\r'
  else if c = 't' then some '\t'
  else none

/-- `string()` after the opening quote: collect characters until the closing
quote, applying escapes; an unknown escape or unterminated string fails. -/
def parseStringBody : Nat → List Char → List Char → Option (String × List Char)
  | 0, _, _ => none
  | _ + 1, _, [] => none
  | fuel + 1, acc, c :: cs =>
    if c = '"' then some (String.mk acc.reverse, cs)
    else if c = '\\' then
      match cs with
      | [] => none
      | e :: cs' =>
        if e = 'u' then
          let (code, cs'') := readHex 4 0 cs'
          parseStringBody fuel (Char.ofNat code :: acc) cs''
        else
          match escChar? e with
          | some ec => parseStringBody fuel (ec :: acc) cs'
          | none => none
    else parseStringBody fuel (c :: acc) cs

/-- JS object assignment `object[key] = value` on an ordered own-property
list: overwrite in place if present, append otherwise. -/
def setKey (fs : List (String × JValue)) (k : String) (v : JValue) :
    List (String × JValue) :=
  match fs with
  | [] => [(k, v)]
  | (k', v') :: rest => if k' = k then (k', v) :: rest else (k', v') :: setKey rest k v

mutual

/-- `value()`: skip whitespace, then dispatch on the first character. -/
def parseValue : Nat → List Char → Option (JValue × List Char)
  | 0, _ => none
  | fuel + 1, cs₀ =>
    match skipWs cs₀ with
    | '{' :: rest =>
      (match skipWs rest with
       | '}' :: rest₂ => some (.obj [], rest₂)
       | cs' => parseObjectFields fuel [] cs')
    | '[' :: rest =>
      (match skipWs rest with
       | ']' :: rest₂ => some (.arr [], rest₂)
       | cs' => parseArrayElems fuel [] cs')
    | '"' :: rest =>
      (match parseStringBody (rest.length + 1) [] rest with
       | some (s, cs₁) => some (.str s, cs₁)
       | none => none)
    | 't' :: 'r' :: 'u' :: 'e' :: rest => some (.bool true, rest)
    | 'f' :: 'a' :: 'l' :: 's' :: 'e' :: rest => some (.bool false, rest)
    | 'n' :: 'u' :: 'l' :: 'l' :: rest => some (.null, rest)
    | c :: rest => if c = '-' ∨ isDigit c then parseNumber (c :: rest) else none
    | [] => none

/-- The element loop of `array()` (called with whitespace skipped and at
least one element present). -/
def parseArrayElems : Nat → List JValue → List Char → Option (JValue × List Char)
  | 0, _, _ => none
  | fuel + 1, acc, cs =>
    match parseValue fuel cs with
    | none => none
    | some (v, cs₁) =>
      match skipWs cs₁ with
      | ']' :: rest => some (.arr (acc ++ [v]), rest)
      | ',' :: rest => parseArrayElems fuel (acc ++ [v]) rest
      | _ => none

/-- The member loop of `object()` (called with whitespace skipped and at
least one member present). -/
def parseObjectFields : Nat → List (String × JValue) → List Char →
    Option (JValue × List Char)
  | 0, _, _ => none
  | fuel + 1, acc, cs =>
    match cs with
    | '"' :: rest =>
      (match parseStringBody (rest.length + 1) [] rest with
       | none => none
       | some (key, cs₁) =>
         match skipWs cs₁ with
         | ':' :: rest₂ =>
           (match parseValue fuel rest₂ with
            | none => none
            | some (v, cs₂) =>
              let acc' := setKey acc key v
              match skipWs cs₂ with
              | '}' :: rest₃ => some (.obj acc', rest₃)
              | ',' :: rest₃ => parseObjectFields fuel acc' (skipWs rest₃)
              | _ => none)
         | _ => none)
    | _ => none

end

/-- `jsonBig.parse(text)`: parse one value, then only whitespace may remain.
The fuel bound `2·length + 2` dominates the recursion depth, which consumes
at most one unit per parsed value or member. -/
def jsonBigParse (s : String) : Option JValue :=
  match parseValue (2 * s.length + 2) s.data with
  | some (v, rest) => if skipWs rest = [] then some v else none
  | none => none

/-- A response `data` payload after `transformResponse`: either the decoded
structured value or the raw text when decoding failed. -/
inductive RespData where
  | parsed (v : JValue)
  | raw (s : String)
deriving Repr

/-- The `transformResponse` entry installed by the constructor (lines 43-51):
`try { return this.jsonBig.parse(data) } catch (e) { return data }`. -/
def transformResponse (data : String) : RespData :=
  match jsonBigParse data with
  | some v => .parsed v
  | none => .raw data

/-! ## The response interceptor (source lines 72-94) -/

/-- One entry of `errorCodeArray : (string|number)[]` (line 24). -/
inductive ECode where
  | n (i : Int)
  | s (v : String)
deriving DecidableEq, Repr

/-- A JS number as far as strict comparison against integer codes can
observe it: an exact integer or anything that cannot equal one (`NaN`,
non-integer floats — collapsed to `nan`, which matches no integer entry,
exactly as in JS where the wrapper's codes are integers). -/
inductive JSNum where
  | int (i : Int)
  | nan
deriving DecidableEq, Repr

mutual

/-- `Array.prototype.toString` element stringification (used by `String(arr)`
and by `Number(arr)`): `null` becomes the empty string inside a join. -/
def jsStringForJoin : JValue → String
  | .null => ""
  | .bool b => if b then "true" else "false"
  | .num n => toString n
  | .str s => s
  | .arr xs => jsJoinList xs
  | .obj _ => "[object Object]"

def jsJoinList : List JValue → String
  | [] => ""
  | [x] => jsStringForJoin x
  | x :: xs => jsStringForJoin x ++ "," ++ jsJoinList xs

end

/-- `Number(string)`: trimmed empty string is 0; an optionally signed digit
string is that integer; other forms (floats, hex, garbage) cannot equal an
integer code and collapse to `nan`. -/
def jsNumOfString (s : String) : JSNum :=
  let cs := ((s.data.dropWhile (fun c => c.toNat ≤ 32)).reverse.dropWhile
    (fun c => c.toNat ≤ 32)).reverse
  match cs with
  | [] => .int 0
  | '-' :: ds => if ds ≠ [] ∧ ds.all isDigit then .int (-(digitsToNat ds : Int)) else .nan
  | '+' :: ds => if ds ≠ [] ∧ ds.all isDigit then .int (digitsToNat ds) else .nan
  | ds => if ds.all isDigit then .int (digitsToNat ds) else .nan

/-- `Number(data.code)` (line 84). -/
def jsToNumber : JValue → JSNum
  | .num n => .int n
  | .str s => jsNumOfString s
  | .bool b => .int (if b then 1 else 0)
  | .null => .int 0
  | .arr xs => jsNumOfString (jsJoinList xs)
  | .obj _ => .nan

/-- `errorCodeArray.includes(code)` (line 85): `Array.isArray` always holds
for the modelled list, and `includes` uses SameValueZero, under which a
string entry never equals a number. -/
def codeMatches (codes : List ECode) (c : JSNum) : Bool :=
  codes.any (fun e =>
    match e, c with
    | .n i, .int j => i == j
    | _, _ => false)

/-- JS truthiness of a decoded value (`data.message || '请求失败'`,
line 86). -/
def truthyJ : JValue → Bool
  | .null => false
  | .bool b => b
  | .num n => n != 0
  | .str s => !s.isEmpty
  | .arr _ => true
  | .obj _ => true

/-- `String(v)` on a decoded value (the `Error` constructor stringifies a
non-string message). -/
def jsStringJ : JValue → String
  | .null => "null"
  | .bool b => if b then "true" else "false"
  | .num n => toString n
  | .str s => s
  | .arr xs => jsJoinList xs
  | .obj _ => "[object Object]"

/-- `data.message || '请求失败'` (line 86). -/
def messageOf (fs : List (String × JValue)) : String :=
  match List.lookup "message" fs with
  | some v => if truthyJ v then jsStringJ v else "请求失败"
  | none => "请求失败"

/-- Lines 83-88: `data && typeof data === 'object' && 'code' in data`, then
`Number(data.code)` membership in `errorCodeArray`; `some message` when the
interceptor will reject, `none` when the response passes.  Raw (string) data
and non-object decodes fail the `typeof` guard, arrays own no `code` key. -/
def interceptMessage (codes : List ECode) (d : RespData) : Option String :=
  match d with
  | .parsed (.obj fs) =>
    (match List.lookup "code" fs with
     | some cv => if codeMatches codes (jsToNumber cv) then some (messageOf fs) else none
     | none => none)
  | _ => none

/-- The constructor options the response interceptor reads: the intercepted
code set and whether the two optional observers were supplied (`?.` calls). -/
structure RespOpts where
  errorCodeArray : List ECode
  hasOnResponse : Bool
  hasOnResponseError : Bool
deriving Repr

/-- An axios response as seen by the interceptor: its request's
`responseType === 'blob'` flag (line 76) and its decoded `data`. -/
structure Response where
  responseTypeBlob : Bool
  data : RespData
deriving Repr

/-- An error travelling through the pipeline: a transport-level error from
the underlying client (opaque tag) or the `new Error(message)` the
interceptor synthesizes (line 87). -/
inductive PError where
  | transport (id : Nat)
  | errorMsg (m : String)
deriving Repr

/-- Observable events of one request's response phase, in order: observer
invocations and the final signal to the caller. -/
inductive Event where
  | onResponseCall (r : Response)
  | onResponseErrorCall (e : PError)
  | resolved (r : Response)
  | rejected (e : PError)
deriving Repr

/-- Whether an event is an invocation of the failure observer. -/
def isErrObserverCall : Event → Bool
  | .onResponseErrorCall _ => true
  | _ => false

/-- The result the underlying client hands to the response interceptor pair:
a fulfilled response or a transport error. -/
inductive TransportResult where
  | ok (r : Response)
  | err (e : PError)
deriving Repr

/-- The fulfilled handler (lines 72-90): call `onResponse` first (when
supplied), pass blob responses through, otherwise run code interception and
either reject with the synthesized error or resolve the response. -/
def fulfilledHandler (o : RespOpts) (r : Response) : List Event :=
  (if o.hasOnResponse then [Event.onResponseCall r] else []) ++
    (if r.responseTypeBlob then [Event.resolved r]
     else
       match interceptMessage o.errorCodeArray r.data with
       | some m => [Event.rejected (.errorMsg m)]
       | none => [Event.resolved r])

/-- The rejected handler (lines 91-94): call `onResponseError` (when
supplied), then re-reject. -/
def rejectedHandler (o : RespOpts) (e : PError) : List Event :=
  (if o.hasOnResponseError then [Event.onResponseErrorCall e] else []) ++
    [Event.rejected e]

/-- The event trace of the response phase.  Per promise semantics of
`interceptors.response.use(onFulfilled, onRejected)` — which chains
`.then(onFulfilled, onRejected)` — the rejected handler receives only
rejections of the upstream transport promise; a rejection *returned by* the
fulfilled handler (the intercepted-code path) propagates directly to the
caller and is not routed back through this same interceptor's rejected
handler. -/
def pipeline (o : RespOpts) : TransportResult → List Event
  | .ok r => fulfilledHandler o r
  | .err e => rejectedHandler o e

/-! ## Reconstruction from the dotted/indexed field naming (claim C5)

The encoder names a nested position by a path of segments appended to the
top-level key: `.subKey` for an object member, `[index]` for an array
element.  `Seg`/`pathString` make that naming explicit, `splitName` parses a
field name back into key and path, and `reconstruct` rebuilds a nested value
from a flat field list — the spec-side reversal of the naming, to be compared
with `createFormData`. -/

inductive Seg where
  | fld (name : String)
  | idx (i : Nat)
deriving DecidableEq, Repr

/-- The naming of one segment, as the encoder builds it. -/
def segString : Seg → String
  | .fld s => "." ++ s
  | .idx i => "[" ++ toString i ++ "]"

def pathString : List Seg → String
  | [] => ""
  | s :: p => segString s ++ pathString p

/-- Characters with separator meaning in the naming scheme. -/
def isSepChar (c : Char) : Bool := c == '.' || c == '[' || c == ']'

/-- A key whose name contains no separator character, so the naming can be
parsed back unambiguously. -/
def goodKey (k : String) : Bool := k.data.all (fun c => !isSepChar c)

/-- A path all of whose field segments carry separator-free names. -/
def goodPath (p : List Seg) : Bool :=
  p.all (fun sg => match sg with | .fld n => goodKey n | .idx _ => true)

mutual

/-- Values for which the naming round trip can hold: string leaves only (the
encoder stringifies every non-blob leaf), nonempty arrays and objects (empty
containers emit no field at all), separator-free and pairwise-distinct object
keys (JS objects have distinct keys; separator-free keys parse back
unambiguously). -/
def goodVal : JSVal → Bool
  | .vstr _ => true
  | .varr xs => !xs.isEmpty && goodList xs
  | .vobj fs => !fs.isEmpty && goodFields fs
  | _ => false

def goodList : List JSVal → Bool
  | [] => true
  | x :: xs => goodVal x && goodList xs

def goodFields : List (String × JSVal) → Bool
  | [] => true
  | (k, v) :: fs =>
      goodKey k && !(fs.any (fun kv => kv.1 == k)) && goodVal v && goodFields fs

end

/-- Top-level goodness: separator-free distinct keys with good values. -/
def goodTop : List (String × JSVal) → Bool
  | [] => true
  | (k, v) :: rest =>
      goodKey k && !(rest.any (fun kv => kv.1 == k)) && goodVal v && goodTop rest

mutual

/-- The flattening of a value as (path, text) pairs relative to its own key:
`flattenVal key v` emits exactly these fields under `key ++ pathString path`
(for blob-free values; proved below as the bridge lemma). -/
def flattenPT : JSVal → List (List Seg × String)
  | .varr xs => flattenPTArr xs 0
  | .vobj fs => flattenPTObj fs
  | .vstr s => [([], s)]
  | v => [([], jsStringOf v)]

def flattenPTArr : List JSVal → Nat → List (List Seg × String)
  | [], _ => []
  | x :: xs, i =>
      (flattenPT x).map (fun ps => (Seg.idx i :: ps.1, ps.2)) ++ flattenPTArr xs (i + 1)

def flattenPTObj : List (String × JSVal) → List (List Seg × String)
  | [] => []
  | (k, v) :: fs =>
      (flattenPT v).map (fun ps => (Seg.fld k :: ps.1, ps.2)) ++ flattenPTObj fs

end

mutual

/-- Nesting depth: 0 for leaves, one more than the deepest child for
containers. -/
def depthOf : JSVal → Nat
  | .varr xs => depthList xs + 1
  | .vobj fs => depthFields fs + 1
  | _ => 0

def depthList : List JSVal → Nat
  | [] => 0
  | x :: xs => max (depthOf x) (depthList xs)

def depthFields : List (String × JSVal) → Nat
  | [] => 0
  | (_, v) :: fs => max (depthOf v) (depthFields fs)

end

/-- Parse the segment suffix of a field name: `.name` (name runs to the next
separator) or `[digits]`. -/
def parseSegs : Nat → List Char → Option (List Seg)
  | 0, _ => none
  | _ + 1, [] => some []
  | fuel + 1, '.' :: rest =>
      let name := rest.takeWhile (fun c => !isSepChar c)
      let rest' := rest.dropWhile (fun c => !isSepChar c)
      (match parseSegs fuel rest' with
       | some segs => some (.fld (String.mk name) :: segs)
       | none => none)
  | fuel + 1, '[' :: rest =>
      let ds := rest.takeWhile isDigit
      (match rest.dropWhile isDigit with
       | ']' :: rest' =>
         if ds.isEmpty then none
         else
           match parseSegs fuel rest' with
           | some segs => some (.idx (digitsToNat ds) :: segs)
           | none => none
       | _ => none)
  | _ + 1, _ => none

/-- Split a field name into its top-level key (the separator-free prefix) and
its parsed segment path. -/
def splitName (s : String) : Option (String × List Seg) :=
  let key := s.data.takeWhile (fun c => !isSepChar c)
  let rest := s.data.dropWhile (fun c => !isSepChar c)
  match parseSegs (rest.length + 1) rest with
  | some segs => some (String.mk key, segs)
  | none => none

/-- Parse every emitted field into (top key, (path, text)); fails on blob
fields (the round trip is about blob-free inputs) and unparseable names. -/
def parseAll : List (String × FormField) → Option (List (String × (List Seg × String)))
  | [] => some []
  | (name, f) :: rest =>
    match f with
    | .fblob _ => none
    | .text s =>
      match splitName name with
      | some (k, p) =>
        (match parseAll rest with
         | some l => some ((k, (p, s)) :: l)
         | none => none)
      | none => none

/-- Collect the maximal leading run of entries tagged `h`, returning their
payloads and the remainder. -/
def takeChunkG [DecidableEq α] (h : α) : List (α × β) → List β × List (α × β)
  | [] => ([], [])
  | (h', b) :: rest =>
    if h' = h then
      let (c, r) := takeChunkG h rest
      (b :: c, r)
    else ([], (h', b) :: rest)

/-- Group a tagged list into maximal consecutive runs sharing a tag. -/
def chunksG [DecidableEq α] : Nat → List (α × β) → Option (List (α × List β))
  | 0, _ => none
  | _ + 1, [] => some []
  | fuel + 1, (h, b) :: rest =>
    let (c, r) := takeChunkG h rest
    match chunksG fuel r with
    | some cs => some ((h, b :: c) :: cs)
    | none => none

/-- Strip the leading segment of every path; fails if some path is empty. -/
def deconsAll : List (List Seg × String) → Option (List (Seg × (List Seg × String)))
  | [] => some []
  | ([], _) :: _ => none
  | (h :: p, s) :: rest =>
    match deconsAll rest with
    | some l => some ((h, (p, s)) :: l)
    | none => none

def isIdxSeg : Seg → Bool
  | .idx _ => true
  | .fld _ => false

def segFieldName : Seg → String
  | .fld k => k
  | .idx i => toString i

/-- The leaf case of rebuilding: exactly one entry with an exhausted path is
a string leaf. -/
def leafCase : List (List Seg × String) → Option JSVal
  | [([], s)] => some (.vstr s)
  | _ => none

mutual

/-- Rebuild a value from its (path, text) entries: a single empty-path entry
is a string leaf; otherwise group the entries by leading segment — a run of
`[index]` segments rebuilds an array in order, a run of `.name` segments an
object. -/
def rebuild : Nat → List (List Seg × String) → Option JSVal
  | 0, _ => none
  | fuel + 1, l =>
    match deconsAll l with
    | some l' =>
      (match chunksG (l'.length + 1) l' with
       | none => none
       | some cs =>
         match rebuildMap fuel cs with
         | none => none
         | some hvs =>
           if hvs.isEmpty then none
           else if hvs.all (fun hv => isIdxSeg hv.1) then some (.varr (hvs.map Prod.snd))
           else if hvs.all (fun hv => !isIdxSeg hv.1) then
             some (.vobj (hvs.map (fun hv => (segFieldName hv.1, hv.2))))
           else none)
    | none => leafCase l

def rebuildMap : Nat → List (Seg × List (List Seg × String)) → Option (List (Seg × JSVal))
  | _, [] => some []
  | fuel, (h, c) :: cs =>
    match rebuild fuel c, rebuildMap fuel cs with
    | some v, some vs => some ((h, v) :: vs)
    | _, _ => none

end

/-- The contents of one top-level entry as chunk blocks. -/
def arrBlocks : List JSVal → Nat → List (Seg × List (List Seg × String))
  | [], _ => []
  | x :: xs, i => (Seg.idx i, flattenPT x) :: arrBlocks xs (i + 1)

def objBlocks : List (String × JSVal) → List (Seg × List (List Seg × String))
  | [] => []
  | (k, v) :: fs => (Seg.fld k, flattenPT v) :: objBlocks fs

/-- Expected rebuilt (tag, value) pairs for arrays and objects. -/
def arrHV : List JSVal → Nat → List (Seg × JSVal)
  | [], _ => []
  | x :: xs, i => (Seg.idx i, x) :: arrHV xs (i + 1)

def objHV : List (String × JSVal) → List (Seg × JSVal)
  | [] => []
  | (k, v) :: fs => (Seg.fld k, v) :: objHV fs

def topBlocks : List (String × JSVal) → List (String × List (List Seg × String))
  | [] => []
  | (k, v) :: rest => (k, flattenPT v) :: topBlocks rest

def pathsWeight (l : List (List Seg × String)) : Nat :=
  l.foldr (fun ps a => ps.1.length + 1 + a) 0

def entriesWeight (l : List (String × (List Seg × String))) : Nat :=
  l.foldr (fun e a => e.2.1.length + 1 + a) 0

def rebuildTop (fuel : Nat) : List (String × List (List Seg × String)) →
    Option (List (String × JSVal))
  | [] => some []
  | (k, c) :: cs =>
    match rebuild fuel c, rebuildTop fuel cs with
    | some v, some vs => some ((k, v) :: vs)
    | _, _ => none

/-- Reconstruct a nested top-level mapping from a flat field list by
reversing the dotted-path and indexed field naming: parse every name, group
by top-level key, and rebuild each group. -/
def reconstruct (fields : List (String × FormField)) : Option (List (String × JSVal)) :=
  match parseAll fields with
  | none => none
  | some entries =>
    match chunksG (entries.length + 1) entries with
    | none => none
    | some cs => rebuildTop (entriesWeight entries + 1) cs

/-- Reference decimal printer, to relate `toString (i : Nat)` (used by the
encoder for array indices) to `digitsToNat`. -/
def natDigits (n : Nat) : List Char :=
  if _h : n < 10 then [Nat.digitChar n]
  else natDigits (n / 10) ++ [Nat.digitChar (n % 10)]
decreasing_by exact Nat.div_lt_self (by omega) (by omega)

end PXAxios

/-! # Theorems -/

namespace PXAxios

theorem flattenVal_terminal (key : String) (v : JSVal) (h : isTerminal v = true) :
    flattenVal key v = [(key, leafField v)] := by
  cases v <;> simp_all [flattenVal, leafField, isTerminal]

theorem flattenArr_terminal (key : String) (xs : List JSVal) (i : Nat)
    (h : ∀ x ∈ xs, isTerminal x = true) :
    flattenArr key xs i =
      (xs.enumFrom i).map
        (fun p => (key ++ "[" ++ toString p.1 ++ "]", leafField p.2)) := by
  induction xs generalizing i with
  | nil => simp [flattenArr]
  | cons x xs ih =>
      have hx : isTerminal x = true := h x (List.mem_cons_self x xs)
      have hxs : ∀ y ∈ xs, isTerminal y = true := fun y hy => h y (List.mem_cons_of_mem x hy)
      simp [flattenArr, flattenVal_terminal _ _ hx, ih _ hxs, List.enumFrom]

/-! ## Claim C6: array flattening -/

/-- Claim C6 (as stated) is false: an array element that is itself a container
does not contribute a field named `key[index]`.  For the one-element array
`[[ ]]` (N = 1) the encoder emits no field at all, in particular no field
named `key[0]`, because recursion into the empty inner array appends
nothing. -/
theorem c6_counterexample :
    flattenVal "key" (JSVal.varr [JSVal.varr []]) = [] ∧
      "key[0]" ∉ (flattenVal "key" (JSVal.varr [JSVal.varr []])).map Prod.fst := by
  constructor
  · rfl
  · simp [flattenVal, flattenArr]

/-- Claim C6 (amended): for every array of length N all of whose elements are
terminal (non-container) values, flattening under `key` yields exactly N
fields named `key[0]`, …, `key[N-1]`, in index order, each carrying the
corresponding element. -/
theorem c6_array_fields (key : String) (xs : List JSVal)
    (h : ∀ x ∈ xs, isTerminal x = true) :
    flattenVal key (JSVal.varr xs) =
      xs.enum.map (fun p => (key ++ "[" ++ toString p.1 ++ "]", leafField p.2)) := by
  simpa [flattenVal, List.enum] using flattenArr_terminal key xs 0 h

/-- Witness for `c6_array_fields` at a concrete two-element array. -/
theorem c6_array_fields_witness :
    flattenVal "tags" (JSVal.varr [JSVal.vstr "vue", JSVal.vstr "ts"]) =
      [("tags[0]", FormField.text "vue"), ("tags[1]", FormField.text "ts")] := by
  have h := c6_array_fields "tags" [JSVal.vstr "vue", JSVal.vstr "ts"]
    (by intro x hx; simp at hx; rcases hx with h1 | h1 <;> simp [h1, isTerminal])
  simpa [List.enum, List.enumFrom, leafField, jsStringOf] using h

/-! ## Claim C7: blobs are terminal, verbatim, exactly-once -/

theorem fieldBlobs_append (l₁ l₂ : List (String × FormField)) :
    fieldBlobs (l₁ ++ l₂) = fieldBlobs l₁ ++ fieldBlobs l₂ := by
  simp [fieldBlobs]

mutual

theorem fieldBlobs_flattenVal (key : String) (v : JSVal) :
    fieldBlobs (flattenVal key v) = blobsIn v := by
  cases v with
  | vblob b => simp [flattenVal, blobsIn, fieldBlobs]
  | varr xs => simp only [flattenVal, blobsIn]; exact fieldBlobs_flattenArr key xs 0
  | vobj fs => simp only [flattenVal, blobsIn]; exact fieldBlobs_flattenObj key fs
  | vstr s => simp [flattenVal, blobsIn, fieldBlobs]
  | vnum n => simp [flattenVal, blobsIn, fieldBlobs]
  | vbool b => simp [flattenVal, blobsIn, fieldBlobs]
  | vnull => simp [flattenVal, blobsIn, fieldBlobs]
  | vundef => simp [flattenVal, blobsIn, fieldBlobs]

theorem fieldBlobs_flattenArr (key : String) (xs : List JSVal) (i : Nat) :
    fieldBlobs (flattenArr key xs i) = blobsInList xs := by
  cases xs with
  | nil => simp [flattenArr, blobsInList, fieldBlobs]
  | cons x xs =>
      rw [flattenArr, blobsInList, fieldBlobs_append,
        fieldBlobs_flattenVal _ x, fieldBlobs_flattenArr key xs (i + 1)]

theorem fieldBlobs_flattenObj (key : String) (fs : List (String × JSVal)) :
    fieldBlobs (flattenObj key fs) = blobsInFields fs := by
  cases fs with
  | nil => simp [flattenObj, blobsInFields, fieldBlobs]
  | cons kv fs =>
      obtain ⟨k, v⟩ := kv
      rw [flattenObj, blobsInFields, fieldBlobs_append,
        fieldBlobs_flattenVal _ v, fieldBlobs_flattenObj key fs]

end

/-- Claim C7: for every input and every blob occurring at any depth, the blob
appears verbatim as exactly one field of the output and is never decomposed.
The blob identifiers among the emitted field values are exactly, in order and
with multiplicity, the blob identifiers occurring in the input — both for the
recursive worker `appendFormData` under an arbitrary key and for the
`createFormData` entry point (whose top-level skip drops only `null` and
`undefined`, never blobs). -/
theorem c7_blobs_verbatim :
    (∀ (key : String) (v : JSVal), fieldBlobs (flattenVal key v) = blobsIn v) ∧
      (∀ data : List (String × JSVal),
        fieldBlobs (createFormData data) =
          (data.filter (fun kv => !isNullOrUndef kv.2)).flatMap (fun kv => blobsIn kv.2)) := by
  refine ⟨fieldBlobs_flattenVal, ?_⟩
  intro data
  induction data with
  | nil => simp [createFormData, fieldBlobs]
  | cons kv rest ih =>
      obtain ⟨k, v⟩ := kv
      by_cases h : isNullOrUndef v = true
      · simp [createFormData, List.filter_cons, h] at ih ⊢
        exact ih
      · have hv : isNullOrUndef v = false := eq_false_of_ne_true h
        simp only [createFormData] at ih ⊢
        rw [List.foldr_cons, hv]
        simp only [Bool.false_eq_true, if_false]
        rw [fieldBlobs_append, fieldBlobs_flattenVal, ih]
        simp [List.filter_cons, hv]

/-! ## Claim C10: null below the top level -/

/-- Claim C10: a `null` below the top level is not skipped — `appendFormData`
emits it as one text field `"null"` under the current key (so a `null` array
element or object member yields such a field) — while top-level `null` and
`undefined` entries of `createFormData` emit no field at all. -/
theorem c10_null_handling :
    (∀ key : String, flattenVal key JSVal.vnull = [(key, FormField.text "null")]) ∧
      (∀ key : String,
        flattenVal key (JSVal.varr [JSVal.vnull]) =
          [(key ++ "[0]", FormField.text "null")]) ∧
      (∀ (key sub : String),
        flattenVal key (JSVal.vobj [(sub, JSVal.vnull)]) =
          [(key ++ "." ++ sub, FormField.text "null")]) ∧
      (∀ (k : String) (rest : List (String × JSVal)),
        createFormData ((k, JSVal.vnull) :: rest) = createFormData rest ∧
          createFormData ((k, JSVal.vundef) :: rest) = createFormData rest) := by
  refine ⟨fun key => rfl, fun key => ?_, fun key sub => ?_, fun k rest => ⟨?_, ?_⟩⟩
  · have h0 : ("[" : String) ++ (toString (0 : Nat) ++ "]") = "[0]" := rfl
    simp only [flattenVal, flattenArr, jsStringOf, List.append_nil]
    rw [String.append_assoc, String.append_assoc, h0]
  · simp [flattenVal, flattenObj, jsStringOf]
  · simp [createFormData, isNullOrUndef]
  · simp [createFormData, isNullOrUndef]

/-! ## Header-merge lemmas -/

theorem applyFlat_apply (t : HeaderTable) (headers : List (String × InVal))
    (m : Scope) (k : String) :
    applyFlat t headers m k =
      if m = Scope.common then flatLastWrite (t .common k) headers k else t m k := by
  induction headers generalizing t with
  | nil =>
      simp only [applyFlat, flatLastWrite, List.foldl_nil]
      by_cases hm : m = Scope.common <;> simp [hm]
  | cons kv rest ih =>
      obtain ⟨k₀, v₀⟩ := kv
      show applyFlat _ rest m k = _
      rw [ih]
      by_cases hm : m = Scope.common
      · subst hm
        by_cases hk : k₀ = k
        · subst hk
          by_cases hn : isNullVal v₀ = true <;>
            simp [flatLastWrite, hn, delAt, setAt]
        · by_cases hn : isNullVal v₀ = true <;>
            simp [flatLastWrite, hn, delAt, setAt, hk, Ne.symm hk]
      · by_cases hn : isNullVal v₀ = true <;>
          simp [hn, delAt, setAt, hm]

/-! ## Claim C8: flat-form header merging -/

/-- Claim C8: when no top-level key of the input is a verb-scope name, every
(name, value) pair is applied to the `common` scope — a `null` value removes
the name (a no-op when absent), any other value sets or overwrites it, later
pairs winning — and no other scope is touched.  In particular
`setGlobalHeaders` with `X-A: '1'` followed by `setGlobalHeaders` with
`X-A: null` leaves `X-A` absent from `common`. -/
theorem c8_flat_merges_common (t : HeaderTable) (headers : List (String × InVal))
    (h : isMethodBased headers = false) :
    (∀ m : Scope, m ≠ Scope.common → ∀ k, setGlobalHeaders t headers m k = t m k) ∧
      (∀ k, setGlobalHeaders t headers Scope.common k =
        flatLastWrite (t Scope.common k) headers k) ∧
      (∀ t' : HeaderTable,
        setGlobalHeaders (setGlobalHeaders t' [("X-A", .val (.hs "1"))])
            [("X-A", .val .hnull)] Scope.common "X-A" = none) := by
  refine ⟨?_, ?_, ?_⟩
  · intro m hm k
    rw [setGlobalHeaders, h]
    simp only [Bool.false_eq_true, if_false]
    rw [applyFlat_apply]
    simp [hm]
  · intro k
    rw [setGlobalHeaders, h]
    simp only [Bool.false_eq_true, if_false]
    rw [applyFlat_apply]
    simp
  · intro t'
    have h2 : isMethodBased [("X-A", InVal.val HVal.hnull)] = false := by decide
    rw [setGlobalHeaders, h2]
    simp only [Bool.false_eq_true, if_false]
    rw [applyFlat_apply]
    simp [flatLastWrite, isNullVal]

/-- Witness for `c8_flat_merges_common`: the flat input `X-A: '1'` on an
empty table sets `X-A` in `common` only, and the follow-up `X-A: null`
removes it. -/
theorem c8_flat_merges_common_witness :
    setGlobalHeaders (fun _ _ => none) [("X-A", .val (.hs "1"))]
        Scope.common "X-A" = some (.val (.hs "1")) ∧
      setGlobalHeaders (fun _ _ => none) [("X-A", .val (.hs "1"))]
        Scope.post "X-A" = none ∧
      setGlobalHeaders (setGlobalHeaders (fun _ _ => none) [("X-A", .val (.hs "1"))])
        [("X-A", .val .hnull)] Scope.common "X-A" = none := by
  have h := c8_flat_merges_common (fun _ _ => none)
    [("X-A", InVal.val (HVal.hs "1"))] (by decide)
  refine ⟨?_, ?_, h.2.2 _⟩
  · rw [h.2.1 "X-A"]; rfl
  · rw [h.1 Scope.post (by decide) "X-A"]

/-! ## Claim C9: non-scope keys are ignored in per-scope form -/

theorem scopeName_mem_methodNames (m : Scope) : scopeName m ∈ methodNames := by
  cases m <;> decide

theorem lookup_filter_methodNames (s : String) (hs : s ∈ methodNames)
    (headers : List (String × InVal)) :
    List.lookup s (headers.filter (fun kv => methodNames.contains kv.1)) =
      List.lookup s headers := by
  induction headers with
  | nil => rfl
  | cons kv rest ih =>
      obtain ⟨k, v⟩ := kv
      simp only [List.elem_eq_mem] at ih
      by_cases hk : k = s
      · subst hk
        simp [List.filter_cons, List.elem_iff, hs, List.lookup]
      · have hsk : (s == k) = false := beq_eq_false_iff_ne.mpr (Ne.symm hk)
        by_cases hmem : k ∈ methodNames
        · simp [List.filter_cons, List.elem_iff, hmem, List.lookup, hsk, ih]
        · simp [List.filter_cons, List.elem_iff, hmem, List.lookup, hsk, ih]

/-- Claim C9: when the input has at least one verb-scope top-level key, keys
that are not verb-scope names are silently ignored — the result of
`setGlobalHeaders` is exactly the result of applying only the verb-scope
keyed entries, so no header in any scope is set, overwritten or removed on
behalf of the other keys. -/
theorem c9_nonscope_keys_ignored (t : HeaderTable) (headers : List (String × InVal))
    (h : isMethodBased headers = true) :
    setGlobalHeaders t headers =
      setGlobalHeaders t (headers.filter (fun kv => methodNames.contains kv.1)) := by
  have hfilt : isMethodBased (headers.filter (fun kv => methodNames.contains kv.1)) = true := by
    rw [isMethodBased, List.any_eq_true] at h ⊢
    obtain ⟨kv, hmem, hkv⟩ := h
    exact ⟨kv, List.mem_filter.mpr ⟨hmem, hkv⟩, hkv⟩
  rw [setGlobalHeaders, setGlobalHeaders, h, hfilt, if_pos rfl, if_pos rfl]
  rw [applyMethodBased, applyMethodBased]
  have hfun :
      (fun (t' : HeaderTable) (m : Scope) =>
        match List.lookup (scopeName m) headers with
        | some iv => if truthy iv then applyScopeEntries t' m (entriesOf iv) else t'
        | none => t') =
      (fun (t' : HeaderTable) (m : Scope) =>
        match List.lookup (scopeName m)
            (headers.filter (fun kv => methodNames.contains kv.1)) with
        | some iv => if truthy iv then applyScopeEntries t' m (entriesOf iv) else t'
        | none => t') := by
    funext t' m
    rw [lookup_filter_methodNames (scopeName m) (scopeName_mem_methodNames m)]
  rw [hfun]

/-- Witness for `c9_nonscope_keys_ignored`: an input carrying both a `post`
scope object and a stray flat key `X-A` behaves exactly like the input with
`X-A` dropped. -/
theorem c9_nonscope_keys_ignored_witness :
    setGlobalHeaders (fun _ _ => none)
        [("post", .scope [("B", .hs "2")]), ("X-A", .val (.hs "1"))] =
      setGlobalHeaders (fun _ _ => none)
        ([("post", .scope [("B", .hs "2")]), ("X-A", .val (.hs "1"))].filter
          (fun kv => methodNames.contains kv.1)) :=
  c9_nonscope_keys_ignored (fun _ _ => none)
    [("post", .scope [("B", .hs "2")]), ("X-A", .val (.hs "1"))] (by decide)

/-! ## Decimal digits: `toString (i : Nat)` inverts through `digitsToNat` -/

theorem natDigits_lt (n : Nat) (h : n < 10) : natDigits n = [Nat.digitChar n] := by
  rw [natDigits]; simp [h]

theorem natDigits_ge (n : Nat) (h : ¬n < 10) :
    natDigits n = natDigits (n / 10) ++ [Nat.digitChar (n % 10)] := by
  rw [natDigits]; simp [h]

theorem natDigits_ne_nil (n : Nat) : natDigits n ≠ [] := by
  rw [natDigits]; split <;> simp

theorem digitChar_isDigit : ∀ k, k < 10 → isDigit (Nat.digitChar k) = true := by decide

theorem digitChar_toNat : ∀ k, k < 10 → (Nat.digitChar k).toNat - 48 = k := by decide

theorem digitsToNat_append_one (l : List Char) (c : Char) :
    digitsToNat (l ++ [c]) = digitsToNat l * 10 + (c.toNat - 48) := by
  simp [digitsToNat, List.foldl_append]

theorem natDigits_all_digit (n : Nat) : ∀ c ∈ natDigits n, isDigit c = true := by
  induction n using Nat.strong_induction_on with
  | _ n ih =>
    by_cases h : n < 10
    · rw [natDigits_lt n h]
      intro c hc
      simp only [List.mem_singleton] at hc
      subst hc
      exact digitChar_isDigit n h
    · rw [natDigits_ge n h]
      intro c hc
      rcases List.mem_append.mp hc with h1 | h1
      · exact ih (n / 10) (Nat.div_lt_self (by omega) (by omega)) c h1
      · simp only [List.mem_singleton] at h1
        subst h1
        exact digitChar_isDigit _ (Nat.mod_lt _ (by omega))

theorem digitsToNat_natDigits (n : Nat) : digitsToNat (natDigits n) = n := by
  induction n using Nat.strong_induction_on with
  | _ n ih =>
    by_cases h : n < 10
    · rw [natDigits_lt n h]
      have h1 : digitsToNat [Nat.digitChar n] = (Nat.digitChar n).toNat - 48 := by
        simp [digitsToNat]
      rw [h1, digitChar_toNat n h]
    · rw [natDigits_ge n h, digitsToNat_append_one,
        ih (n / 10) (Nat.div_lt_self (by omega) (by omega)),
        digitChar_toNat _ (Nat.mod_lt _ (by omega))]
      omega

theorem toDigitsCore_eq_natDigits (fuel : Nat) :
    ∀ (n : Nat) (acc : List Char), n < 10 ^ fuel → 0 < fuel →
      Nat.toDigitsCore 10 fuel n acc = natDigits n ++ acc := by
  induction fuel with
  | zero => intro n acc _ hf; omega
  | succ f ih =>
      intro n acc hlt _
      rw [Nat.toDigitsCore]
      by_cases h0 : n / 10 = 0
      · have h10 : n < 10 := by omega
        simp [h0, natDigits_lt n h10, Nat.mod_eq_of_lt h10]
      · have hge : ¬n < 10 := by omega
        have hf : 0 < f := by
          by_contra hc
          have : f = 0 := by omega
          subst this
          simp at hlt
          omega
        simp only [h0, if_false]
        rw [ih (n / 10) (Nat.digitChar (n % 10) :: acc) ?_ hf]
        · rw [natDigits_ge n hge]
          simp
        · have : n < 10 ^ f * 10 := by
            have := Nat.pow_succ 10 f
            omega
          exact Nat.div_lt_of_lt_mul (by omega)

theorem toString_nat_data (n : Nat) : (toString n).data = natDigits n := by
  show (Nat.repr n).data = natDigits n
  rw [Nat.repr, Nat.toDigits]
  have hb : (1 : Nat) < 10 := by omega
  have hlt : n < 10 ^ (n + 1) :=
    lt_of_lt_of_le (Nat.lt_pow_self hb n) (Nat.pow_le_pow_right (by omega) (by omega))
  have h := toDigitsCore_eq_natDigits (n + 1) n [] hlt (by omega)
  rw [h]
  simp [List.asString]

/-! ## takeWhile / dropWhile over appends -/

theorem takeWhile_append_of_all {α : Type} (p : α → Bool) (l₁ l₂ : List α)
    (h : ∀ a ∈ l₁, p a = true) :
    (l₁ ++ l₂).takeWhile p = l₁ ++ l₂.takeWhile p := by
  induction l₁ with
  | nil => simp
  | cons a l ih =>
      have ha := h a (List.mem_cons_self a l)
      simp only [List.cons_append, List.takeWhile_cons, ha, if_true]
      rw [ih (fun b hb => h b (List.mem_cons_of_mem a hb))]

theorem dropWhile_append_of_all {α : Type} (p : α → Bool) (l₁ l₂ : List α)
    (h : ∀ a ∈ l₁, p a = true) :
    (l₁ ++ l₂).dropWhile p = l₂.dropWhile p := by
  induction l₁ with
  | nil => simp
  | cons a l ih =>
      have ha := h a (List.mem_cons_self a l)
      simp only [List.cons_append, List.dropWhile_cons, ha, if_true]
      exact ih (fun b hb => h b (List.mem_cons_of_mem a hb))

/-! ## Structural facts about the path-level flattening -/

theorem goodVal_not_nullundef (v : JSVal) (h : goodVal v = true) :
    isNullOrUndef v = false := by
  cases v <;> simp_all [goodVal, isNullOrUndef]

mutual

theorem flattenPT_ne_nil (v : JSVal) (h : goodVal v = true) : flattenPT v ≠ [] := by
  cases v with
  | vstr s => simp [flattenPT]
  | varr xs =>
      simp only [goodVal, Bool.and_eq_true, Bool.not_eq_true', List.isEmpty_eq_false] at h
      exact flattenPTArr_ne_nil xs 0 h.2 h.1
  | vobj fs =>
      simp only [goodVal, Bool.and_eq_true, Bool.not_eq_true', List.isEmpty_eq_false] at h
      exact flattenPTObj_ne_nil fs h.2 h.1
  | vnum n => simp [goodVal] at h
  | vbool b => simp [goodVal] at h
  | vnull => simp [goodVal] at h
  | vundef => simp [goodVal] at h
  | vblob b => simp [goodVal] at h

theorem flattenPTArr_ne_nil (xs : List JSVal) (i : Nat) (hg : goodList xs = true)
    (hne : xs ≠ []) : flattenPTArr xs i ≠ [] := by
  cases xs with
  | nil => exact absurd rfl hne
  | cons x xs =>
      simp only [goodList, Bool.and_eq_true] at hg
      have hx := flattenPT_ne_nil x hg.1
      simp only [flattenPTArr, ne_eq, List.append_eq_nil, List.map_eq_nil_iff]
      intro hc
      exact hx hc.1

theorem flattenPTObj_ne_nil (fs : List (String × JSVal)) (hg : goodFields fs = true)
    (hne : fs ≠ []) : flattenPTObj fs ≠ [] := by
  cases fs with
  | nil => exact absurd rfl hne
  | cons kv fs =>
      obtain ⟨k, v⟩ := kv
      simp only [goodFields, Bool.and_eq_true] at hg
      have hx := flattenPT_ne_nil v hg.1.2
      simp only [flattenPTObj, ne_eq, List.append_eq_nil, List.map_eq_nil_iff]
      intro hc
      exact hx hc.1

end

mutual

theorem flattenVal_eq_PT (v : JSVal) (h : goodVal v = true) (key : String) :
    flattenVal key v =
      (flattenPT v).map (fun ps => (key ++ pathString ps.1, FormField.text ps.2)) := by
  cases v with
  | vstr s =>
      simp [flattenVal, flattenPT, pathString, jsStringOf]
  | varr xs =>
      simp only [goodVal, Bool.and_eq_true] at h
      simp only [flattenVal, flattenPT]
      exact flattenArr_eq_PT xs h.2 key 0
  | vobj fs =>
      simp only [goodVal, Bool.and_eq_true] at h
      simp only [flattenVal, flattenPT]
      exact flattenObj_eq_PT fs h.2 key
  | vnum n => simp [goodVal] at h
  | vbool b => simp [goodVal] at h
  | vnull => simp [goodVal] at h
  | vundef => simp [goodVal] at h
  | vblob b => simp [goodVal] at h

theorem flattenArr_eq_PT (xs : List JSVal) (h : goodList xs = true) (key : String)
    (i : Nat) :
    flattenArr key xs i =
      (flattenPTArr xs i).map (fun ps => (key ++ pathString ps.1, FormField.text ps.2)) := by
  cases xs with
  | nil => simp [flattenArr, flattenPTArr]
  | cons x xs =>
      simp only [goodList, Bool.and_eq_true] at h
      rw [flattenArr, flattenPTArr, List.map_append, List.map_map,
        flattenVal_eq_PT x h.1, flattenArr_eq_PT xs h.2 key (i + 1)]
      congr 1
      apply List.map_congr_left
      intro ps _
      simp [Function.comp, pathString, segString, String.append_assoc]

theorem flattenObj_eq_PT (fs : List (String × JSVal)) (h : goodFields fs = true)
    (key : String) :
    flattenObj key fs =
      (flattenPTObj fs).map (fun ps => (key ++ pathString ps.1, FormField.text ps.2)) := by
  cases fs with
  | nil => simp [flattenObj, flattenPTObj]
  | cons kv fs =>
      obtain ⟨k, v⟩ := kv
      simp only [goodFields, Bool.and_eq_true] at h
      rw [flattenObj, flattenPTObj, List.map_append, List.map_map,
        flattenVal_eq_PT v h.1.2, flattenObj_eq_PT fs h.2 key]
      congr 1
      apply List.map_congr_left
      intro ps _
      simp [Function.comp, pathString, segString, String.append_assoc]

end

mutual

theorem flattenPT_paths_good (v : JSVal) (h : goodVal v = true) :
    ∀ ps ∈ flattenPT v, goodPath ps.1 = true := by
  cases v with
  | vstr s =>
      intro ps hps
      simp only [flattenPT, List.mem_singleton] at hps
      subst hps
      rfl
  | varr xs =>
      simp only [goodVal, Bool.and_eq_true] at h
      simp only [flattenPT]
      exact flattenPTArr_paths_good xs 0 h.2
  | vobj fs =>
      simp only [goodVal, Bool.and_eq_true] at h
      simp only [flattenPT]
      exact flattenPTObj_paths_good fs h.2
  | vnum n => simp [goodVal] at h
  | vbool b => simp [goodVal] at h
  | vnull => simp [goodVal] at h
  | vundef => simp [goodVal] at h
  | vblob b => simp [goodVal] at h

theorem flattenPTArr_paths_good (xs : List JSVal) (i : Nat) (h : goodList xs = true) :
    ∀ ps ∈ flattenPTArr xs i, goodPath ps.1 = true := by
  cases xs with
  | nil => intro ps hps; simp [flattenPTArr] at hps
  | cons x xs =>
      simp only [goodList, Bool.and_eq_true] at h
      intro ps hps
      simp only [flattenPTArr, List.mem_append, List.mem_map] at hps
      rcases hps with ⟨qs, hqs, heq⟩ | hps
      · subst heq
        have hg := flattenPT_paths_good x h.1 qs hqs
        simp only [goodPath, List.all_cons, Bool.and_eq_true]
        exact ⟨trivial, hg⟩
      · exact flattenPTArr_paths_good xs (i + 1) h.2 ps hps

theorem flattenPTObj_paths_good (fs : List (String × JSVal)) (h : goodFields fs = true) :
    ∀ ps ∈ flattenPTObj fs, goodPath ps.1 = true := by
  cases fs with
  | nil => intro ps hps; simp [flattenPTObj] at hps
  | cons kv fs =>
      obtain ⟨k, v⟩ := kv
      simp only [goodFields, Bool.and_eq_true] at h
      intro ps hps
      simp only [flattenPTObj, List.mem_append, List.mem_map] at hps
      rcases hps with ⟨qs, hqs, heq⟩ | hps
      · subst heq
        have hg := flattenPT_paths_good v h.1.2 qs hqs
        simp only [goodPath, List.all_cons, Bool.and_eq_true]
        exact ⟨h.1.1.1, hg⟩
      · exact flattenPTObj_paths_good fs h.2 ps hps

end

/-! ## Parsing a field name back into key and path -/

theorem pathString_data_cons (sg : Seg) (p : List Seg) :
    (pathString (sg :: p)).data = (segString sg).data ++ (pathString p).data := rfl

theorem segString_fld_data (n : String) : (segString (Seg.fld n)).data = '.' :: n.data := rfl

theorem segString_idx_data (i : Nat) :
    (segString (Seg.idx i)).data = '[' :: (natDigits i ++ [']']) := by
  show (("[" ++ toString i ++ "]") : String).data = _
  have h1 : (("[" ++ toString i ++ "]") : String).data =
      ('[' :: (toString i).data) ++ [']'] := rfl
  rw [h1, toString_nat_data]
  simp

theorem pathString_takeWhile_nonsep (p : List Seg) :
    (pathString p).data.takeWhile (fun c => !isSepChar c) = [] := by
  cases p with
  | nil => rfl
  | cons sg p =>
      cases sg with
      | fld n =>
          rw [pathString_data_cons, segString_fld_data]
          simp [List.takeWhile_cons, isSepChar]
      | idx i =>
          rw [pathString_data_cons, segString_idx_data]
          simp [List.takeWhile_cons, isSepChar]

theorem pathString_dropWhile_nonsep (p : List Seg) :
    (pathString p).data.dropWhile (fun c => !isSepChar c) = (pathString p).data := by
  cases p with
  | nil => rfl
  | cons sg p =>
      cases sg with
      | fld n =>
          rw [pathString_data_cons, segString_fld_data]
          simp [List.dropWhile_cons, isSepChar]
      | idx i =>
          rw [pathString_data_cons, segString_idx_data]
          simp [List.dropWhile_cons, isSepChar]

theorem pathString_length_ge (p : List Seg) : p.length ≤ (pathString p).data.length := by
  induction p with
  | nil => simp
  | cons sg p ih =>
      rw [pathString_data_cons]
      have h1 : 1 ≤ (segString sg).data.length := by
        cases sg with
        | fld n => rw [segString_fld_data]; simp
        | idx i => rw [segString_idx_data]; simp
      simp only [List.length_append, List.length_cons]
      omega

theorem parseSegs_pathString (p : List Seg) :
    ∀ fuel, goodPath p = true → p.length < fuel →
      parseSegs fuel (pathString p).data = some p := by
  induction p with
  | nil =>
      intro fuel _ hf
      cases fuel with
      | zero => omega
      | succ f => rfl
  | cons sg p ih =>
      intro fuel hg hf
      obtain ⟨f, rfl⟩ : ∃ f, fuel = f + 1 := ⟨fuel - 1, by omega⟩
      have hf' : p.length < f := by simp only [List.length_cons] at hf; omega
      simp only [goodPath, List.all_cons, Bool.and_eq_true] at hg
      have hgp : goodPath p = true := hg.2
      cases sg with
      | fld n =>
          have hn : goodKey n = true := hg.1
          rw [pathString_data_cons, segString_fld_data]
          have hshape : ('.' :: n.data) ++ (pathString p).data =
              '.' :: (n.data ++ (pathString p).data) := rfl
          rw [hshape]
          simp only [parseSegs]
          have hall : ∀ c ∈ n.data, (fun c => !isSepChar c) c = true := by
            simpa [goodKey, List.all_eq_true] using hn
          rw [takeWhile_append_of_all _ _ _ hall, dropWhile_append_of_all _ _ _ hall,
            pathString_takeWhile_nonsep, pathString_dropWhile_nonsep,
            ih f hgp hf']
          simp

      | idx i =>
          rw [pathString_data_cons, segString_idx_data]
          have hshape : ('[' :: (natDigits i ++ [']'])) ++ (pathString p).data =
              '[' :: (natDigits i ++ (']' :: (pathString p).data)) := by
            simp
          rw [hshape]
          simp only [parseSegs]
          have hall : ∀ c ∈ natDigits i, isDigit c = true := natDigits_all_digit i
          rw [takeWhile_append_of_all _ _ _ hall, dropWhile_append_of_all _ _ _ hall]
          have htw : (']' :: (pathString p).data).takeWhile isDigit = [] := by
            simp [List.takeWhile_cons, isDigit]
          have hdw : (']' :: (pathString p).data).dropWhile isDigit =
              ']' :: (pathString p).data := by
            simp [List.dropWhile_cons, isDigit]
          rw [htw, hdw]
          simp only [List.append_nil]
          have hne : (natDigits i).isEmpty = false := by
            cases hni : natDigits i with
            | nil => exact absurd hni (natDigits_ne_nil i)
            | cons c cs => rfl
          rw [ih f hgp hf']
          simp [hne, digitsToNat_natDigits]

theorem string_mk_data (s : String) : String.mk s.data = s := rfl

theorem splitName_spec (k : String) (p : List Seg) (hk : goodKey k = true)
    (hp : goodPath p = true) : splitName (k ++ pathString p) = some (k, p) := by
  have hdata : (k ++ pathString p).data = k.data ++ (pathString p).data := rfl
  have hall : ∀ c ∈ k.data, (fun c => !isSepChar c) c = true := by
    simpa [goodKey, List.all_eq_true] using hk
  rw [splitName, hdata]
  rw [takeWhile_append_of_all _ _ _ hall, dropWhile_append_of_all _ _ _ hall,
    pathString_takeWhile_nonsep, pathString_dropWhile_nonsep]
  have hlen : p.length < (pathString p).data.length + 1 :=
    Nat.lt_succ_of_le (pathString_length_ge p)
  rw [parseSegs_pathString p _ hp hlen]
  simp only [List.append_nil, string_mk_data]

/-! ## parseAll distributes over the emitted blocks -/

theorem parseAll_append (l₁ l₂ : List (String × FormField))
    (a₁ a₂ : List (String × (List Seg × String)))
    (h₁ : parseAll l₁ = some a₁) (h₂ : parseAll l₂ = some a₂) :
    parseAll (l₁ ++ l₂) = some (a₁ ++ a₂) := by
  induction l₁ generalizing a₁ with
  | nil =>
      simp only [parseAll] at h₁
      cases h₁
      simpa using h₂
  | cons nf rest ih =>
      obtain ⟨name, f⟩ := nf
      cases f with
      | fblob b => simp [parseAll] at h₁
      | text s =>
          simp only [parseAll] at h₁ ⊢
          cases hsn : splitName name with
          | none => rw [hsn] at h₁; cases h₁
          | some kp =>
              rw [hsn] at h₁
              obtain ⟨k, p⟩ := kp
              cases hpa : parseAll rest with
              | none => rw [hpa] at h₁; cases h₁
              | some l =>
                  rw [hpa] at h₁
                  cases h₁
                  rw [List.cons_append]
                  simp only [parseAll, hsn]
                  rw [show rest.append l₂ = rest ++ l₂ from rfl, ih l hpa]

theorem parseAll_block (key : String) (b : List (List Seg × String))
    (hk : goodKey key = true) (hb : ∀ ps ∈ b, goodPath ps.1 = true) :
    parseAll (b.map (fun ps => (key ++ pathString ps.1, FormField.text ps.2))) =
      some (b.map (fun ps => (key, ps))) := by
  induction b with
  | nil => rfl
  | cons ps b ih =>
      have hp := hb ps (List.mem_cons_self ps b)
      simp only [List.map_cons, parseAll, splitName_spec key ps.1 hk hp]
      rw [ih (fun qs hqs => hb qs (List.mem_cons_of_mem ps hqs))]

/-! ## Chunking recovers consecutive tagged blocks -/

theorem takeChunkG_map_append {α β : Type} [DecidableEq α] (h : α) (b : List β)
    (r : List (α × β)) (hr : ∀ y ∈ r.head?, y.1 ≠ h) :
    takeChunkG h (b.map (fun x => (h, x)) ++ r) = (b, r) := by
  induction b with
  | nil =>
      simp only [List.map_nil, List.nil_append]
      cases r with
      | nil => rfl
      | cons y rest =>
          obtain ⟨y1, y2⟩ := y
          have hy : y1 ≠ h := hr (y1, y2) (by simp)
          simp [takeChunkG, hy]
  | cons x b ih =>
      simp only [List.map_cons, List.cons_append, takeChunkG, eq_self_iff_true, if_true]
      rw [show (List.map (fun x => (h, x)) b).append r =
        List.map (fun x => (h, x)) b ++ r from rfl, ih]

theorem chunksG_flat {α β : Type} [DecidableEq α] (blocks : List (α × List β)) :
    ∀ fuel, blocks.length < fuel →
      (∀ hb ∈ blocks, hb.2 ≠ []) →
      blocks.Chain' (fun x y => x.1 ≠ y.1) →
      chunksG fuel (blocks.flatMap (fun hb => hb.2.map (fun x => (hb.1, x)))) =
        some blocks := by
  induction blocks with
  | nil =>
      intro fuel hf _ _
      obtain ⟨f, rfl⟩ : ∃ f, fuel = f + 1 := ⟨fuel - 1, by omega⟩
      rfl
  | cons hb blocks ih =>
      intro fuel hf hne hch
      obtain ⟨h, b⟩ := hb
      obtain ⟨f, rfl⟩ : ∃ f, fuel = f + 1 := ⟨fuel - 1, by omega⟩
      have hbne : b ≠ [] := hne (h, b) (List.mem_cons_self _ _)
      obtain ⟨b₀, b', rfl⟩ : ∃ b₀ b', b = b₀ :: b' := by
        cases b with
        | nil => exact absurd rfl hbne
        | cons b₀ b' => exact ⟨b₀, b', rfl⟩
      have hr : ∀ y ∈ (blocks.flatMap (fun hb => hb.2.map (fun x => (hb.1, x)))).head?,
          y.1 ≠ h := by
        intro y hy
        cases blocks with
        | nil => simp at hy
        | cons hb₂ blocks₂ =>
            obtain ⟨h₂, b₂⟩ := hb₂
            have hb₂ne : b₂ ≠ [] := hne (h₂, b₂) (by simp)
            obtain ⟨c₂, b₂', rfl⟩ : ∃ c₂ b₂', b₂ = c₂ :: b₂' := by
              cases b₂ with
              | nil => exact absurd rfl hb₂ne
              | cons c₂ b₂' => exact ⟨c₂, b₂', rfl⟩
            simp only [List.flatMap_cons, List.map_cons, List.cons_append,
              List.head?_cons, Option.mem_def, Option.some_inj] at hy
            subst hy
            have := (List.chain'_cons.mp hch).1
            simpa using fun hc => this hc.symm
      have hsh : ((h, b₀ :: b') :: blocks).flatMap
            (fun hb => hb.2.map (fun x => (hb.1, x))) =
          (h, b₀) :: (b'.map (fun x => (h, x)) ++
            blocks.flatMap (fun hb => hb.2.map (fun x => (hb.1, x)))) := by
        simp
      rw [hsh]
      simp only [chunksG]
      rw [takeChunkG_map_append h b' _ hr]
      have hlen : blocks.length < f := by
        simp only [List.length_cons] at hf; omega
      rw [ih f hlen (fun x hx => hne x (List.mem_cons_of_mem _ hx)) (List.Chain'.tail hch)]

theorem length_le_flat {α β : Type} (blocks : List (α × List β))
    (hne : ∀ hb ∈ blocks, hb.2 ≠ []) :
    blocks.length ≤ (blocks.flatMap (fun hb => hb.2.map (fun x => (hb.1, x)))).length := by
  induction blocks with
  | nil => simp
  | cons hb blocks ih =>
      obtain ⟨h, b⟩ := hb
      have hbne : b ≠ [] := hne (h, b) (List.mem_cons_self _ _)
      have h1 : 1 ≤ b.length := by
        cases b with
        | nil => exact absurd rfl hbne
        | cons _ _ => simp
      have h2 := ih (fun x hx => hne x (List.mem_cons_of_mem _ hx))
      simp only [List.flatMap_cons, List.length_append, List.length_map, List.length_cons]
      omega

/-! ## Stripping leading segments -/

theorem deconsAll_append (l₁ l₂ : List (List Seg × String))
    (a₁ a₂ : List (Seg × (List Seg × String)))
    (h₁ : deconsAll l₁ = some a₁) (h₂ : deconsAll l₂ = some a₂) :
    deconsAll (l₁ ++ l₂) = some (a₁ ++ a₂) := by
  induction l₁ generalizing a₁ with
  | nil =>
      simp only [deconsAll] at h₁
      cases h₁
      exact h₂
  | cons ps rest ih =>
      obtain ⟨p, s⟩ := ps
      cases p with
      | nil => simp [deconsAll] at h₁
      | cons hseg p' =>
          simp only [deconsAll] at h₁
          cases hda : deconsAll rest with
          | none => rw [hda] at h₁; cases h₁
          | some l =>
              rw [hda] at h₁
              cases h₁
              rw [List.cons_append]
              simp only [deconsAll]
              rw [ih l hda]
              rfl

theorem deconsAll_block (h : Seg) (b : List (List Seg × String)) :
    deconsAll (b.map (fun ps => (h :: ps.1, ps.2))) =
      some (b.map (fun ps => (h, ps))) := by
  induction b with
  | nil => rfl
  | cons ps b ih =>
      obtain ⟨p, s⟩ := ps
      simp only [List.map_cons, deconsAll, ih]

theorem deconsAll_flat (blocks : List (Seg × List (List Seg × String))) :
    deconsAll (blocks.flatMap (fun hb => hb.2.map (fun ps => (hb.1 :: ps.1, ps.2)))) =
      some (blocks.flatMap (fun hb => hb.2.map (fun ps => (hb.1, ps)))) := by
  induction blocks with
  | nil => rfl
  | cons hb blocks ih =>
      obtain ⟨h, b⟩ := hb
      simp only [List.flatMap_cons]
      exact deconsAll_append _ _ _ _ (deconsAll_block h b) ih

/-! ## Block decompositions of the path-level flattening -/

theorem flattenPTArr_eq_flat (xs : List JSVal) :
    ∀ i, flattenPTArr xs i =
      (arrBlocks xs i).flatMap (fun hb => hb.2.map (fun ps => (hb.1 :: ps.1, ps.2))) := by
  induction xs with
  | nil => intro i; rfl
  | cons x xs ih =>
      intro i
      simp only [flattenPTArr, arrBlocks, List.flatMap_cons, ih (i + 1)]

theorem flattenPTObj_eq_flat (fs : List (String × JSVal)) :
    flattenPTObj fs =
      (objBlocks fs).flatMap (fun hb => hb.2.map (fun ps => (hb.1 :: ps.1, ps.2))) := by
  induction fs with
  | nil => rfl
  | cons kv fs ih =>
      obtain ⟨k, v⟩ := kv
      simp only [flattenPTObj, objBlocks, List.flatMap_cons, ih]

theorem arrBlocks_contents_ne_nil (xs : List JSVal) (hg : goodList xs = true) :
    ∀ i, ∀ hb ∈ arrBlocks xs i, hb.2 ≠ [] := by
  induction xs with
  | nil => intro i hb hmem; simp [arrBlocks] at hmem
  | cons x xs ih =>
      intro i hb hmem
      simp only [goodList, Bool.and_eq_true] at hg
      simp only [arrBlocks, List.mem_cons] at hmem
      rcases hmem with rfl | hmem
      · exact flattenPT_ne_nil x hg.1
      · exact ih hg.2 (i + 1) hb hmem

theorem objBlocks_contents_ne_nil (fs : List (String × JSVal)) (hg : goodFields fs = true) :
    ∀ hb ∈ objBlocks fs, hb.2 ≠ [] := by
  induction fs with
  | nil => intro hb hmem; simp [objBlocks] at hmem
  | cons kv fs ih =>
      obtain ⟨k, v⟩ := kv
      intro hb hmem
      simp only [goodFields, Bool.and_eq_true] at hg
      simp only [objBlocks, List.mem_cons] at hmem
      rcases hmem with rfl | hmem
      · exact flattenPT_ne_nil v hg.1.2
      · exact ih hg.2 hb hmem

theorem arrBlocks_chain (xs : List JSVal) :
    ∀ i, (arrBlocks xs i).Chain' (fun x y => x.1 ≠ y.1) := by
  induction xs with
  | nil => intro i; simp [arrBlocks]
  | cons x xs ih =>
      intro i
      cases xs with
      | nil => simp [arrBlocks]
      | cons x₂ xs₂ =>
          rw [arrBlocks, arrBlocks, List.chain'_cons]
          constructor
          · simp
          · rw [← arrBlocks]
            exact ih (i + 1)

theorem objBlocks_chain (fs : List (String × JSVal)) (hg : goodFields fs = true) :
    (objBlocks fs).Chain' (fun x y => x.1 ≠ y.1) := by
  induction fs with
  | nil => simp [objBlocks]
  | cons kv fs ih =>
      obtain ⟨k, v⟩ := kv
      simp only [goodFields, Bool.and_eq_true] at hg
      cases fs with
      | nil => simp [objBlocks]
      | cons kv₂ fs₂ =>
          obtain ⟨k₂, v₂⟩ := kv₂
          rw [objBlocks, objBlocks, List.chain'_cons]
          constructor
          · have hnot := hg.1.1.2
            simp only [List.any_cons, Bool.or_eq_true, beq_iff_eq, Bool.not_eq_true] at hnot
            intro hc
            simp only [Seg.fld.injEq] at hc
            simp [hc.symm] at hnot
          · rw [← objBlocks]
            exact ih hg.2

/-! ## Expected rebuild outputs -/

theorem arrHV_map_snd (xs : List JSVal) : ∀ i, (arrHV xs i).map Prod.snd = xs := by
  induction xs with
  | nil => intro i; rfl
  | cons x xs ih => intro i; simp [arrHV, ih (i + 1)]

theorem arrHV_all_idx (xs : List JSVal) :
    ∀ i, (arrHV xs i).all (fun hv => isIdxSeg hv.1) = true := by
  induction xs with
  | nil => intro i; rfl
  | cons x xs ih =>
      intro i
      rw [arrHV, List.all_cons]
      exact ih (i + 1)

theorem arrHV_isEmpty (xs : List JSVal) (h : xs ≠ []) :
    ∀ i, (arrHV xs i).isEmpty = false := by
  cases xs with
  | nil => exact absurd rfl h
  | cons x xs => intro i; rfl

theorem objHV_map (fs : List (String × JSVal)) :
    (objHV fs).map (fun hv => (segFieldName hv.1, hv.2)) = fs := by
  induction fs with
  | nil => rfl
  | cons kv fs ih =>
      obtain ⟨k, v⟩ := kv
      rw [objHV, List.map_cons, ih]
      rfl

theorem objHV_all_notidx (fs : List (String × JSVal)) :
    (objHV fs).all (fun hv => !isIdxSeg hv.1) = true := by
  induction fs with
  | nil => rfl
  | cons kv fs ih =>
      obtain ⟨k, v⟩ := kv
      rw [objHV, List.all_cons]
      exact ih

theorem objHV_isEmpty (fs : List (String × JSVal)) (h : fs ≠ []) :
    (objHV fs).isEmpty = false := by
  cases fs with
  | nil => exact absurd rfl h
  | cons kv fs => obtain ⟨k, v⟩ := kv; rfl

theorem objHV_all_idx_false (fs : List (String × JSVal)) (h : fs ≠ []) :
    (objHV fs).all (fun hv => isIdxSeg hv.1) = false := by
  cases fs with
  | nil => exact absurd rfl h
  | cons kv fs =>
      obtain ⟨k, v⟩ := kv
      simp [objHV, isIdxSeg]

/-! ## Rebuilding recovers every good value -/

theorem rebuild_via_blocks (f : Nat) (blocks : List (Seg × List (List Seg × String)))
    (hvs : List (Seg × JSVal))
    (hne : ∀ hb ∈ blocks, hb.2 ≠ [])
    (hch : blocks.Chain' (fun x y => x.1 ≠ y.1))
    (hmap : rebuildMap f blocks = some hvs) :
    rebuild (f + 1) (blocks.flatMap (fun hb => hb.2.map (fun ps => (hb.1 :: ps.1, ps.2)))) =
      (if hvs.isEmpty then none
       else if hvs.all (fun hv => isIdxSeg hv.1) then some (.varr (hvs.map Prod.snd))
       else if hvs.all (fun hv => !isIdxSeg hv.1) then
         some (.vobj (hvs.map (fun hv => (segFieldName hv.1, hv.2))))
       else none) := by
  have hlen : blocks.length <
      ((blocks.flatMap (fun hb => hb.2.map (fun x => (hb.1, x)))).length + 1) :=
    Nat.lt_succ_of_le (length_le_flat blocks hne)
  have hchk := chunksG_flat blocks _ hlen hne hch
  simp only [rebuild, deconsAll_flat, hchk, hmap]

mutual

theorem rebuild_flattenPT (v : JSVal) (h : goodVal v = true) :
    ∀ fuel, depthOf v < fuel → rebuild fuel (flattenPT v) = some v := by
  cases v with
  | vstr s =>
      intro fuel hdep
      obtain ⟨f, rfl⟩ : ∃ f, fuel = f + 1 := ⟨fuel - 1, by omega⟩
      rw [show flattenPT (JSVal.vstr s) = [([], s)] from by rw [flattenPT], rebuild]
      rfl
  | varr xs =>
      simp only [goodVal, Bool.and_eq_true, Bool.not_eq_true', List.isEmpty_eq_false] at h
      intro fuel hdep
      obtain ⟨f, rfl⟩ : ∃ f, fuel = f + 1 := ⟨fuel - 1, by omega⟩
      have hdl : depthList xs < f := by
        have hd : depthOf (JSVal.varr xs) = depthList xs + 1 := rfl
        omega
      have hmap := rebuildMap_arr xs 0 h.2 f hdl
      have hcont := arrBlocks_contents_ne_nil xs h.2 0
      have hch := arrBlocks_chain xs 0
      have hflat : flattenPT (JSVal.varr xs) = (arrBlocks xs 0).flatMap
          (fun hb => hb.2.map (fun ps => (hb.1 :: ps.1, ps.2))) := by
        rw [show flattenPT (JSVal.varr xs) = flattenPTArr xs 0 from rfl,
          flattenPTArr_eq_flat xs 0]
      rw [hflat, rebuild_via_blocks f _ _ hcont hch hmap]
      simp only [arrHV_isEmpty xs h.1 0, arrHV_all_idx xs 0, arrHV_map_snd xs 0,
        Bool.false_eq_true, if_false, if_true]
  | vobj fs =>
      simp only [goodVal, Bool.and_eq_true, Bool.not_eq_true', List.isEmpty_eq_false] at h
      intro fuel hdep
      obtain ⟨f, rfl⟩ : ∃ f, fuel = f + 1 := ⟨fuel - 1, by omega⟩
      have hdl : depthFields fs < f := by
        have hd : depthOf (JSVal.vobj fs) = depthFields fs + 1 := rfl
        omega
      have hmap := rebuildMap_obj fs h.2 f hdl
      have hcont := objBlocks_contents_ne_nil fs h.2
      have hch := objBlocks_chain fs h.2
      have hflat : flattenPT (JSVal.vobj fs) = (objBlocks fs).flatMap
          (fun hb => hb.2.map (fun ps => (hb.1 :: ps.1, ps.2))) := by
        rw [show flattenPT (JSVal.vobj fs) = flattenPTObj fs from rfl,
          flattenPTObj_eq_flat fs]
      rw [hflat, rebuild_via_blocks f _ _ hcont hch hmap]
      simp only [objHV_isEmpty fs h.1, objHV_all_idx_false fs h.1, objHV_all_notidx fs,
        objHV_map fs, Bool.false_eq_true, if_false, if_true]
  | vnum n => simp [goodVal] at h
  | vbool b => simp [goodVal] at h
  | vnull => simp [goodVal] at h
  | vundef => simp [goodVal] at h
  | vblob b => simp [goodVal] at h

theorem rebuildMap_arr (xs : List JSVal) :
    ∀ i, goodList xs = true → ∀ fuel, depthList xs < fuel →
      rebuildMap fuel (arrBlocks xs i) = some (arrHV xs i) := by
  cases xs with
  | nil =>
      intro i _ fuel _
      rw [show arrBlocks [] i = ([] : List (Seg × List (List Seg × String))) from rfl,
        rebuildMap]
      rfl
  | cons x xs =>
      intro i hg fuel hdep
      simp only [goodList, Bool.and_eq_true] at hg
      have hdx : depthOf x < fuel := by
        have h1 : depthOf x ≤ depthList (x :: xs) := by
          rw [show depthList (x :: xs) = max (depthOf x) (depthList xs) from rfl]
          exact le_max_left _ _
        omega
      have hdxs : depthList xs < fuel := by
        have h1 : depthList xs ≤ depthList (x :: xs) := by
          rw [show depthList (x :: xs) = max (depthOf x) (depthList xs) from rfl]
          exact le_max_right _ _
        omega
      have hx := rebuild_flattenPT x hg.1 fuel hdx
      have hxs := rebuildMap_arr xs (i + 1) hg.2 fuel hdxs
      rw [arrBlocks]
      simp only [rebuildMap, hx, hxs]
      rfl

theorem rebuildMap_obj (fs : List (String × JSVal)) :
    goodFields fs = true → ∀ fuel, depthFields fs < fuel →
      rebuildMap fuel (objBlocks fs) = some (objHV fs) := by
  cases fs with
  | nil =>
      intro _ fuel _
      rw [show objBlocks [] = ([] : List (Seg × List (List Seg × String))) from rfl,
        rebuildMap]
      rfl
  | cons kv fs =>
      intro hg fuel hdep
      obtain ⟨k, v⟩ := kv
      simp only [goodFields, Bool.and_eq_true] at hg
      have hdv : depthOf v < fuel := by
        have h1 : depthOf v ≤ depthFields ((k, v) :: fs) := by
          rw [show depthFields ((k, v) :: fs) = max (depthOf v) (depthFields fs) from rfl]
          exact le_max_left _ _
        omega
      have hdfs : depthFields fs < fuel := by
        have h1 : depthFields fs ≤ depthFields ((k, v) :: fs) := by
          rw [show depthFields ((k, v) :: fs) = max (depthOf v) (depthFields fs) from rfl]
          exact le_max_right _ _
        omega
      have hv := rebuild_flattenPT v hg.1.2 fuel hdv
      have hfs := rebuildMap_obj fs hg.2 fuel hdfs
      rw [objBlocks]
      simp only [rebuildMap, hv, hfs]
      rfl

end

/-! ## Weight bounds: enough fuel for every rebuilt value -/

theorem pathsWeight_cons (ps : List Seg × String) (l : List (List Seg × String)) :
    pathsWeight (ps :: l) = ps.1.length + 1 + pathsWeight l := rfl

theorem pathsWeight_append (l₁ l₂ : List (List Seg × String)) :
    pathsWeight (l₁ ++ l₂) = pathsWeight l₁ + pathsWeight l₂ := by
  induction l₁ with
  | nil => simp [pathsWeight]
  | cons ps l ih =>
      rw [List.cons_append, pathsWeight_cons, pathsWeight_cons, ih]
      omega

theorem pathsWeight_map_cons (h : Seg) (b : List (List Seg × String)) :
    pathsWeight (b.map (fun ps => (h :: ps.1, ps.2))) = pathsWeight b + b.length := by
  induction b with
  | nil => rfl
  | cons ps b ih =>
      rw [List.map_cons, pathsWeight_cons, pathsWeight_cons, ih]
      simp only [List.length_cons]
      omega

mutual

theorem depth_le_weight (v : JSVal) (h : goodVal v = true) :
    depthOf v ≤ pathsWeight (flattenPT v) := by
  cases v with
  | vstr s =>
      rw [show flattenPT (JSVal.vstr s) = [([], s)] from by rw [flattenPT]]
      rw [show depthOf (JSVal.vstr s) = 0 from rfl]
      omega
  | varr xs =>
      simp only [goodVal, Bool.and_eq_true, Bool.not_eq_true', List.isEmpty_eq_false] at h
      rw [show flattenPT (JSVal.varr xs) = flattenPTArr xs 0 from rfl,
        show depthOf (JSVal.varr xs) = depthList xs + 1 from rfl]
      exact depthArr_le_weight xs h.2 h.1 0
  | vobj fs =>
      simp only [goodVal, Bool.and_eq_true, Bool.not_eq_true', List.isEmpty_eq_false] at h
      rw [show flattenPT (JSVal.vobj fs) = flattenPTObj fs from rfl,
        show depthOf (JSVal.vobj fs) = depthFields fs + 1 from rfl]
      exact depthObj_le_weight fs h.2 h.1
  | vnum n => simp [goodVal] at h
  | vbool b => simp [goodVal] at h
  | vnull => simp [goodVal] at h
  | vundef => simp [goodVal] at h
  | vblob b => simp [goodVal] at h

theorem depthArr_le_weight (xs : List JSVal) (h : goodList xs = true) (hne : xs ≠ []) :
    ∀ i, depthList xs + 1 ≤ pathsWeight (flattenPTArr xs i) := by
  cases xs with
  | nil => exact absurd rfl hne
  | cons x xs =>
      intro i
      simp only [goodList, Bool.and_eq_true] at h
      have hvx := depth_le_weight x h.1
      have hlenx : 1 ≤ (flattenPT x).length :=
        List.length_pos.mpr (flattenPT_ne_nil x h.1)
      rw [show flattenPTArr (x :: xs) i =
        (flattenPT x).map (fun ps => (Seg.idx i :: ps.1, ps.2)) ++
          flattenPTArr xs (i + 1) from rfl]
      rw [pathsWeight_append, pathsWeight_map_cons]
      cases xs with
      | nil =>
          rw [show depthList [x] = max (depthOf x) (depthList []) from rfl,
            show depthList ([] : List JSVal) = 0 from rfl]
          have : max (depthOf x) 0 = depthOf x := Nat.max_zero _
          omega
      | cons x₂ xs₂ =>
          have hrest := depthArr_le_weight (x₂ :: xs₂) h.2 (by simp) (i + 1)
          rw [show depthList (x :: x₂ :: xs₂) =
            max (depthOf x) (depthList (x₂ :: xs₂)) from rfl]
          omega

theorem depthObj_le_weight (fs : List (String × JSVal)) (h : goodFields fs = true)
    (hne : fs ≠ []) : depthFields fs + 1 ≤ pathsWeight (flattenPTObj fs) := by
  cases fs with
  | nil => exact absurd rfl hne
  | cons kv fs =>
      obtain ⟨k, v⟩ := kv
      simp only [goodFields, Bool.and_eq_true] at h
      have hvx := depth_le_weight v h.1.2
      have hlenx : 1 ≤ (flattenPT v).length :=
        List.length_pos.mpr (flattenPT_ne_nil v h.1.2)
      rw [show flattenPTObj ((k, v) :: fs) =
        (flattenPT v).map (fun ps => (Seg.fld k :: ps.1, ps.2)) ++
          flattenPTObj fs from rfl]
      rw [pathsWeight_append, pathsWeight_map_cons]
      cases fs with
      | nil =>
          rw [show depthFields [(k, v)] = max (depthOf v) (depthFields []) from rfl,
            show depthFields ([] : List (String × JSVal)) = 0 from rfl]
          have : max (depthOf v) 0 = depthOf v := Nat.max_zero _
          omega
      | cons kv₂ fs₂ =>
          have hrest := depthObj_le_weight (kv₂ :: fs₂) h.2 (by simp)
          rw [show depthFields ((k, v) :: kv₂ :: fs₂) =
            max (depthOf v) (depthFields (kv₂ :: fs₂)) from rfl]
          omega

end

/-! ## Claim C5: round trip of the form encoding -/

theorem entriesWeight_cons (e : String × (List Seg × String))
    (l : List (String × (List Seg × String))) :
    entriesWeight (e :: l) = e.2.1.length + 1 + entriesWeight l := rfl

theorem entriesWeight_append (l₁ l₂ : List (String × (List Seg × String))) :
    entriesWeight (l₁ ++ l₂) = entriesWeight l₁ + entriesWeight l₂ := by
  induction l₁ with
  | nil => simp [entriesWeight]
  | cons e l ih =>
      rw [List.cons_append, entriesWeight_cons, entriesWeight_cons, ih]
      omega

theorem entriesWeight_map_pair (k : String) (b : List (List Seg × String)) :
    entriesWeight (b.map (fun ps => (k, ps))) = pathsWeight b := by
  induction b with
  | nil => rfl
  | cons ps b ih =>
      rw [List.map_cons, entriesWeight_cons, pathsWeight_cons, ih]

theorem createFormData_cons (k : String) (v : JSVal) (rest : List (String × JSVal)) :
    createFormData ((k, v) :: rest) =
      if isNullOrUndef v then createFormData rest
      else flattenVal k v ++ createFormData rest := rfl

theorem parseAll_createFormData (data : List (String × JSVal)) (h : goodTop data = true) :
    parseAll (createFormData data) =
      some ((topBlocks data).flatMap (fun kb => kb.2.map (fun ps => (kb.1, ps)))) := by
  induction data with
  | nil => rfl
  | cons kv rest ih =>
      obtain ⟨k, v⟩ := kv
      simp only [goodTop, Bool.and_eq_true] at h
      obtain ⟨⟨⟨hk, _⟩, hv⟩, hrest⟩ := h
      rw [createFormData_cons, goodVal_not_nullundef v hv]
      simp only [Bool.false_eq_true, if_false]
      rw [flattenVal_eq_PT v hv k]
      have hblk := parseAll_block k (flattenPT v) hk (flattenPT_paths_good v hv)
      rw [parseAll_append _ _ _ _ hblk (ih hrest)]
      simp only [topBlocks, List.flatMap_cons]

theorem topBlocks_contents_ne_nil (data : List (String × JSVal))
    (h : goodTop data = true) : ∀ kb ∈ topBlocks data, kb.2 ≠ [] := by
  induction data with
  | nil => intro kb hkb; simp [topBlocks] at hkb
  | cons kv rest ih =>
      obtain ⟨k, v⟩ := kv
      simp only [goodTop, Bool.and_eq_true] at h
      intro kb hkb
      simp only [topBlocks, List.mem_cons] at hkb
      rcases hkb with rfl | hkb
      · exact flattenPT_ne_nil v h.1.2
      · exact ih h.2 kb hkb

theorem topBlocks_chain (data : List (String × JSVal)) (h : goodTop data = true) :
    (topBlocks data).Chain' (fun x y => x.1 ≠ y.1) := by
  induction data with
  | nil => simp [topBlocks]
  | cons kv rest ih =>
      obtain ⟨k, v⟩ := kv
      simp only [goodTop, Bool.and_eq_true] at h
      cases rest with
      | nil => simp [topBlocks]
      | cons kv₂ rest₂ =>
          obtain ⟨k₂, v₂⟩ := kv₂
          rw [topBlocks, topBlocks, List.chain'_cons]
          constructor
          · have hnot := h.1.1.2
            simp only [List.any_cons, Bool.not_eq_true', Bool.or_eq_false_iff,
              beq_eq_false_iff_ne] at hnot
            intro hc
            exact hnot.1 hc.symm
          · rw [← topBlocks]
            exact ih h.2

theorem rebuildTop_blocks (data : List (String × JSVal)) (h : goodTop data = true) :
    ∀ fuel, (∀ kv ∈ data, depthOf kv.2 < fuel) →
      rebuildTop fuel (topBlocks data) = some data := by
  induction data with
  | nil => intro fuel _; rfl
  | cons kv rest ih =>
      obtain ⟨k, v⟩ := kv
      intro fuel hd
      simp only [goodTop, Bool.and_eq_true] at h
      have hdv : depthOf v < fuel := hd (k, v) (List.mem_cons_self _ _)
      rw [topBlocks]
      simp only [rebuildTop, rebuild_flattenPT v h.1.2 fuel hdv,
        ih h.2 fuel (fun x hx => hd x (List.mem_cons_of_mem _ hx))]

theorem member_depth_le (data : List (String × JSVal)) (h : goodTop data = true) :
    ∀ kv ∈ data, depthOf kv.2 ≤
      entriesWeight ((topBlocks data).flatMap (fun kb => kb.2.map (fun ps => (kb.1, ps)))) := by
  induction data with
  | nil => intro kv hkv; simp at hkv
  | cons kv₀ rest ih =>
      obtain ⟨k, v⟩ := kv₀
      simp only [goodTop, Bool.and_eq_true] at h
      intro kv hkv
      simp only [topBlocks, List.flatMap_cons, entriesWeight_append,
        entriesWeight_map_pair]
      rcases List.mem_cons.mp hkv with rfl | hkv
      · have hd := depth_le_weight v h.1.2
        have h2 : depthOf (k, v).2 = depthOf v := rfl
        omega
      · have := ih h.2 kv hkv
        omega

/-- Claim C5 (as stated) is false: the form encoder is not injective on
blob-free inputs, so no reconstruction can reverse it.  The blob-free inputs
`[("a", [])]` (an empty-array value) and `[]` flatten to the same (empty)
field list while being different structures — the empty array emits no field
at all. -/
theorem c5_counterexample :
    createFormData [("a", JSVal.varr [])] = createFormData [] ∧
      [("a", JSVal.varr [])] ≠ ([] : List (String × JSVal)) ∧
      blobsIn (JSVal.varr []) = [] :=
  ⟨rfl, by simp, rfl⟩

/-- Claim C5 (amended): for every nested input mapping containing no blob
values whose leaf values are strings, whose keys — top-level and in every
nested object — are free of the separator characters `.`, `[`, `]` and are
pairwise distinct at each level, and which contains no empty array and no
empty object, flattening with the form encoder and then reconstructing by
reversing the dotted-path and indexed field naming (`reconstruct`: parse each
field name into key and segment path, group by top-level key, group entries
by leading segment, rebuild arrays from `[index]` runs in order and objects
from `.name` runs) yields the original structure. -/
theorem c5_flatten_reconstruct (data : List (String × JSVal))
    (h : goodTop data = true) :
    reconstruct (createFormData data) = some data := by
  have hpa := parseAll_createFormData data h
  have hne := topBlocks_contents_ne_nil data h
  have hch := topBlocks_chain data h
  have hlen : (topBlocks data).length <
      ((topBlocks data).flatMap (fun kb => kb.2.map (fun ps => (kb.1, ps)))).length + 1 :=
    Nat.lt_succ_of_le (length_le_flat _ hne)
  have hchk := chunksG_flat (topBlocks data) _ hlen hne hch
  simp only [reconstruct, hpa, hchk]
  exact rebuildTop_blocks data h _
    (fun kv hkv => Nat.lt_succ_of_le (member_depth_le data h kv hkv))

/-- Witness for `c5_flatten_reconstruct`: a nested object with an inner array
round-trips exactly. -/
theorem c5_flatten_reconstruct_witness :
    reconstruct (createFormData
        [("user", JSVal.vobj [("name", JSVal.vstr "John"),
          ("roles", JSVal.varr [JSVal.vstr "admin", JSVal.vstr "editor"])])]) =
      some [("user", JSVal.vobj [("name", JSVal.vstr "John"),
        ("roles", JSVal.varr [JSVal.vstr "admin", JSVal.vstr "editor"])])] :=
  c5_flatten_reconstruct
    [("user", JSVal.vobj [("name", JSVal.vstr "John"),
      ("roles", JSVal.varr [JSVal.vstr "admin", JSVal.vstr "editor"])])]
    (by decide)

/-! ## Claim C1: when the failure observer runs -/

/-- Claim C1 (as stated) is false: an intercepted-code failure rejects from
the *fulfilled* handler, so the rejection reaches the caller without ever
invoking `onResponseError`.  Concretely, with `errorCodeArray = [4001]` and a
fulfilled response carrying `code: 4001`, the trace ends in a rejection yet
contains no failure-observer invocation (both observers supplied). -/
theorem c1_counterexample :
    pipeline ⟨[ECode.n 4001], true, true⟩
        (.ok ⟨false, .parsed (.obj [("code", .num 4001), ("message", .str "x")])⟩) =
      [Event.onResponseCall
          ⟨false, .parsed (.obj [("code", .num 4001), ("message", .str "x")])⟩,
        Event.rejected (.errorMsg "x")] ∧
      (pipeline ⟨[ECode.n 4001], true, true⟩
          (.ok ⟨false, .parsed (.obj [("code", .num 4001), ("message", .str "x")])⟩)).all
        (fun ev => !isErrObserverCall ev) = true :=
  ⟨rfl, rfl⟩

/-- Claim C1 (amended): the failure observer `onResponseError` is invoked
with the error, before the failure is re-signaled to the caller, exactly for
transport-level failures from the underlying client; an intercepted-code
failure is re-signaled without invoking it (the fulfilled handler produced
it).  The second conjunct: the only traces containing a failure-observer
invocation are those of transport errors, with that very error. -/
theorem c1_error_observer_transport_only (o : RespOpts) (e : PError)
    (h : o.hasOnResponseError = true) :
    pipeline o (.err e) = [Event.onResponseErrorCall e, Event.rejected e] ∧
      ∀ (tr : TransportResult) (e' : PError),
        Event.onResponseErrorCall e' ∈ pipeline o tr → tr = .err e' := by
  constructor
  · simp [pipeline, rejectedHandler, h]
  · intro tr e' hmem
    cases tr with
    | ok r =>
        exfalso
        simp only [pipeline, fulfilledHandler] at hmem
        rcases List.mem_append.mp hmem with h1 | h1
        · split at h1 <;> simp_all
        · revert h1
          split
          · simp
          · split <;> simp
    | err e'' =>
        simp only [pipeline, rejectedHandler] at hmem
        rcases List.mem_append.mp hmem with h1 | h1
        · split at h1 <;> simp_all
        · simp_all

/-- Witness for `c1_error_observer_transport_only` at a concrete transport
error. -/
theorem c1_error_observer_transport_only_witness :
    pipeline ⟨[], true, true⟩ (.err (.transport 7)) =
      [Event.onResponseErrorCall (.transport 7), Event.rejected (.transport 7)] :=
  (c1_error_observer_transport_only ⟨[], true, true⟩ (.transport 7) rfl).1

/-! ## Claim C2: when the success observer runs -/

/-- Claim C2 (as stated) is false in its second half: `onResponse` is the
first statement of the fulfilled handler, so it *is* invoked on a response
that the wrapper then rejects via code interception.  Concretely, a response
with `code: 4001` against `errorCodeArray = [4001]` is intercepted
(`interceptMessage` fires) yet the trace begins with the success-observer
invocation. -/
theorem c2_counterexample :
    interceptMessage [ECode.n 4001]
        (.parsed (.obj [("code", .num 4001), ("message", .str "x")])) = some "x" ∧
      pipeline ⟨[ECode.n 4001], true, false⟩
          (.ok ⟨false, .parsed (.obj [("code", .num 4001), ("message", .str "x")])⟩) =
        [Event.onResponseCall
            ⟨false, .parsed (.obj [("code", .num 4001), ("message", .str "x")])⟩,
          Event.rejected (.errorMsg "x")] :=
  ⟨rfl, rfl⟩

/-- Claim C2 (amended): `onResponse` is invoked with the response, first, on
*every* fulfilled transport response — including those subsequently rejected
via code interception — and on every non-intercepted response (blob-typed or
passing the code check) it is invoked before the response is returned. -/
theorem c2_onresponse_first (o : RespOpts) (r : Response)
    (h : o.hasOnResponse = true) :
    (pipeline o (.ok r)).head? = some (Event.onResponseCall r) ∧
      (r.responseTypeBlob = false → interceptMessage o.errorCodeArray r.data = none →
        pipeline o (.ok r) = [Event.onResponseCall r, Event.resolved r]) ∧
      (r.responseTypeBlob = true →
        pipeline o (.ok r) = [Event.onResponseCall r, Event.resolved r]) := by
  refine ⟨?_, ?_, ?_⟩
  · simp only [pipeline, fulfilledHandler, h, if_true, List.singleton_append,
      List.head?_cons]
  · intro hb hn
    simp [pipeline, fulfilledHandler, h, hb, hn]
  · intro hb
    simp [pipeline, fulfilledHandler, h, hb]

/-- Witness for `c2_onresponse_first` at a concrete non-intercepted
response. -/
theorem c2_onresponse_first_witness :
    (pipeline ⟨[], true, true⟩ (.ok ⟨false, .parsed .null⟩)).head? =
        some (Event.onResponseCall ⟨false, .parsed .null⟩) ∧
      pipeline ⟨[], true, true⟩ (.ok ⟨false, .parsed .null⟩) =
        [Event.onResponseCall ⟨false, .parsed .null⟩,
          Event.resolved ⟨false, .parsed .null⟩] := by
  have h := c2_onresponse_first ⟨[], true, true⟩ ⟨false, .parsed .null⟩ rfl
  exact ⟨h.1, h.2.1 rfl rfl⟩

/-! ## Claim C3: response-code interception -/

/-- Claim C3: for a successful non-blob response whose decoded payload is an
object with a `code` field, if `Number(code)` is in the configured code set
the call fails with the payload's `message` (or the default message when the
`message` field is absent or falsy); with an empty configured set it
resolves; and for a blob-typed response the whole check is skipped and the
response resolves regardless. -/
theorem c3_code_interception (o : RespOpts) (r : Response)
    (fs : List (String × JValue)) (cv : JValue)
    (hdata : r.data = .parsed (.obj fs))
    (hcode : List.lookup "code" fs = some cv) :
    (r.responseTypeBlob = false →
      codeMatches o.errorCodeArray (jsToNumber cv) = true →
        pipeline o (.ok r) =
          (if o.hasOnResponse then [Event.onResponseCall r] else []) ++
            [Event.rejected (.errorMsg (messageOf fs))]) ∧
      (r.responseTypeBlob = false → o.errorCodeArray = [] →
        pipeline o (.ok r) =
          (if o.hasOnResponse then [Event.onResponseCall r] else []) ++
            [Event.resolved r]) ∧
      (r.responseTypeBlob = true →
        pipeline o (.ok r) =
          (if o.hasOnResponse then [Event.onResponseCall r] else []) ++
            [Event.resolved r]) ∧
      (∀ m : String, List.lookup "message" fs = some (.str m) → m ≠ "" →
        messageOf fs = m) ∧
      (List.lookup "message" fs = none → messageOf fs = "请求失败") := by
  refine ⟨?_, ?_, ?_, ?_, ?_⟩
  · intro hb hm
    simp [pipeline, fulfilledHandler, hb, interceptMessage, hdata, hcode, hm]
  · intro hb he
    simp [pipeline, fulfilledHandler, hb, interceptMessage, hdata, hcode, he, codeMatches]
  · intro hb
    simp [pipeline, fulfilledHandler, hb]
  · intro m hm hne
    simp [messageOf, hm, truthyJ, jsStringJ, String.isEmpty_iff, hne]
  · intro hm
    simp [messageOf, hm]

/-- Witness for `c3_code_interception`: `code: 4001` with `message: "x"` is
rejected with message `x` when `4001` is configured, resolves when the
configured set is empty, and resolves when the response is blob-typed. -/
theorem c3_code_interception_witness :
    pipeline ⟨[ECode.n 4001], false, false⟩
        (.ok ⟨false, .parsed (.obj [("code", .num 4001), ("message", .str "x")])⟩) =
      [Event.rejected (.errorMsg "x")] ∧
      pipeline ⟨[], false, false⟩
          (.ok ⟨false, .parsed (.obj [("code", .num 4001), ("message", .str "x")])⟩) =
        [Event.resolved ⟨false, .parsed (.obj [("code", .num 4001), ("message", .str "x")])⟩] ∧
      pipeline ⟨[ECode.n 4001], false, false⟩
          (.ok ⟨true, .parsed (.obj [("code", .num 4001), ("message", .str "x")])⟩) =
        [Event.resolved ⟨true, .parsed (.obj [("code", .num 4001), ("message", .str "x")])⟩] := by
  refine ⟨?_, ?_, ?_⟩
  · have h := (c3_code_interception ⟨[ECode.n 4001], false, false⟩
      ⟨false, .parsed (.obj [("code", .num 4001), ("message", .str "x")])⟩
      [("code", .num 4001), ("message", .str "x")] (.num 4001) rfl rfl).1 rfl rfl
    simpa using h
  · have h := (c3_code_interception ⟨[], false, false⟩
      ⟨false, .parsed (.obj [("code", .num 4001), ("message", .str "x")])⟩
      [("code", .num 4001), ("message", .str "x")] (.num 4001) rfl rfl).2.1 rfl rfl
    simpa using h
  · have h := (c3_code_interception ⟨[ECode.n 4001], false, false⟩
      ⟨true, .parsed (.obj [("code", .num 4001), ("message", .str "x")])⟩
      [("code", .num 4001), ("message", .str "x")] (.num 4001) rfl rfl).2.2.1 rfl
    simpa using h

/-! ## Claim C4: precision-preserving decoding -/

/-- Claim C4: the decoder parses the payload as structured data; an integer
token whose exact value exceeds the safe native range (2^53 - 1 in absolute
value) decodes to its exact decimal source text while a safe integer token
stays numeric — in particular the body `\x7b"userId":9223372036854775807\x7d`
decodes with `userId` equal to the string `"9223372036854775807"` — and when
parsing fails the raw payload is returned unchanged. -/
theorem c4_bigint_decoding :
    (transformResponse "\x7b\"userId\":9223372036854775807\x7d" =
      .parsed (.obj [("userId", .str "9223372036854775807")])) ∧
      (∀ s : String, jsonBigParse s = none → transformResponse s = .raw s) ∧
      (∀ (token : String) (ds : List Char) (neg : Bool),
        maxSafeInt < (digitsToNat ds : Int) →
          mkNumber token neg ds [] 0 = .str token) ∧
      (∀ (token : String) (ds : List Char) (neg : Bool),
        (digitsToNat ds : Int) ≤ maxSafeInt →
          mkNumber token neg ds [] 0 =
            .num (if neg then -(digitsToNat ds : Int) else (digitsToNat ds : Int))) := by
  refine ⟨rfl, ?_, ?_, ?_⟩
  · intro s h
    simp [transformResponse, h]
  · intro token ds neg h
    simp [mkNumber, not_le.mpr h]
  · intro token ds neg h
    simp [mkNumber, h]

/-- Witness for `c4_bigint_decoding`: a non-JSON payload falls back to the
raw text; the first unsafe integer 2^53 is stored as its exact decimal
string; a small integer stays numeric. -/
theorem c4_bigint_decoding_witness :
    transformResponse "nope" = .raw "nope" ∧
      mkNumber "9007199254740992" false ("9007199254740992".data) [] 0 =
        .str "9007199254740992" ∧
      mkNumber "42" false ("42".data) [] 0 = .num 42 := by
  refine ⟨c4_bigint_decoding.2.1 "nope" rfl, ?_, ?_⟩
  · exact c4_bigint_decoding.2.2.1 "9007199254740992" ("9007199254740992".data) false
      (by decide)
  · have h := c4_bigint_decoding.2.2.2 "42" ("42".data) false (by decide)
    rw [h]
    rfl

end PXAxios
